import Mathlib

set_option maxRecDepth 100000

/-!
Shallow embedding of the chained hash table from `src/hashtable.c` and
`src/hashtable.h` (repository tomyo/Hash-Table).

Modelling conventions:
* keys are byte buffers, modelled as `List Nat` (one entry per byte); the
  stored `key_len` of an element is the length of that list, and `memcmp`
  over two complete buffers of equal length is list equality;
* values are opaque pointers, modelled as `Nat`; the null pointer is `0`
  (so `hash_table_lookup` returning `0` models the C function returning
  `NULL`);
* `malloc`/`calloc` are assumed to succeed (no out-of-memory paths);
* undefined behaviour (division by zero, dereferencing or reading through
  an invalid pointer, taking `hash % 0`) is modelled by returning `none`;
* `assert` statements are modelled as no-ops, i.e. release-build (NDEBUG)
  semantics;
* the caller-supplied destroy callbacks are modelled as two booleans
  recording whether a callback was supplied, and every callback invocation
  is recorded as an `Event`, so that claims about which callbacks fire can
  be stated;
* `hash_table_resize` calls `hash_table_add` for every migrated element and
  `hash_table_add` can call `hash_table_resize` (automatic growth), so the
  mutual recursion is expressed with an explicit fuel argument that bounds
  the nesting depth of resize calls.  The nesting depth is bounded in C by
  the width of `uint16_t` (each nested growth doubles `key_num` modulo
  65536, reaching 0, hence undefined behaviour, after at most 16 levels),
  so `FUEL = 64` is never exhausted on any input; the public entry points
  instantiate the fuel with `FUEL`.
* the 16-bit reads of the hash function are little-endian (x86), and the
  `uint16_t` fields (`key_num`, the hash state) are modelled as `Nat`
  reduced modulo 65536 at the points where C truncates.
-/

/-- The mode enumeration `hash_table_mode_t` of hashtable.h. -/
inductive Mode where
  | MODE_COPY
  | MODE_VALUEREF
  | MODE_ALLREF
deriving DecidableEq, Repr

/-- A recorded invocation of a caller-supplied destroy callback. -/
inductive Event where
  | keyDestroy (key : List Nat)
  | valueDestroy (value : Nat)
deriving DecidableEq, Repr

/-- One stored key-value pair: `struct hash_table_element` with the `next`
pointers of a chain represented by the enclosing `List Element`. -/
structure Element where
  key : List Nat
  value : Nat
  value_len : Nat
deriving DecidableEq, Repr

/-- The table `struct hash_table`.  `store_house` is the bucket array,
`key_num` the number of buckets (a `uint16_t` in C), `key_count` the number
of stored entries, `key_ratio` the growth/shrink threshold.  The two
booleans record whether the corresponding destroy callback was supplied to
`hash_table_new_full`.  The iterator cursor `iter_pos` is kept outside this
structure (see `IterState`). -/
structure Table where
  store_house : List (List Element)
  mode : Mode
  key_destroy_fun : Bool
  value_destroy_fun : Bool
  key_count : Nat
  key_num : Nat
  key_ratio : Nat
deriving DecidableEq, Repr

/-- INITIAL_SIZE from hashtable.c. -/
def INITIAL_SIZE : Nat := 128

/-- KEY_RATIO from hashtable.c. -/
def KEY_RATIO : Nat := 4

/-- Fuel bound for the add/resize recursion; see the header comment. -/
def FUEL : Nat := 64

/-- Pair up the bytes of the key into the 16-bit words that
`hash_table_do_hash` reads through its `uint16_t` pointer (little-endian);
a trailing odd byte is ignored because the loop runs `key_len / 2` times. -/
def toWords : List Nat → List Nat
  | b0 :: b1 :: rest => (b0 % 256 + 256 * (b1 % 256)) :: toWords rest
  | _ => []

/-- The loop of `hash_table_do_hash`: `hash ^= (i<<4 ^ *ptr<<8 ^ *ptr)`,
with the assignment truncating to `uint16_t`. -/
def hashWords : List Nat → Nat → Nat → Nat
  | [], _, h => h
  | w :: ws, i, h =>
      hashWords ws (i + 1) ((h ^^^ ((i <<< 4) ^^^ ((w <<< 8) ^^^ w))) % 65536)

/-- hash_table_do_hash of hashtable.c: the 0xbabe-seeded mixer folded into
`[0, max_key)` by modulo.  The C function has undefined behaviour when
`max_key = 0`; callers of this model guard that case themselves. -/
def hash_table_do_hash (key : List Nat) (max_key : Nat) : Nat :=
  hashWords (toWords key) 0 0xbabe % max_key

/-- The `HASH(key, key_len)` macro of hashtable.h applied to a table:
`hash_table_do_hash(key, key_len, table->key_num)`. -/
def tableHash (t : Table) (key : List Nat) : Nat :=
  hash_table_do_hash key t.key_num

/-- Key comparison as performed by every search loop of hashtable.c: entries
are compared only when their stored `key_len` equals the probe length, and
then `memcmp` compares that many bytes; for complete buffers this is list
equality. -/
def keyMatches (stored probe : List Nat) : Bool :=
  stored.length == probe.length && stored == probe

/-- Bucket `i` of the table (`table->store_house[i]`); reading any slot that
was never written yields the null chain (the array is calloc-ed). -/
def bucketAt (t : Table) (i : Nat) : List Element :=
  t.store_house.getD i []

/-- hash_table_new_full of hashtable.c: an empty table with
`INITIAL_SIZE` buckets and `KEY_RATIO` as the resize threshold. -/
def hash_table_new_full (mode : Mode) (kdf vdf : Bool) : Table :=
  { store_house := List.replicate INITIAL_SIZE []
    mode := mode
    key_destroy_fun := kdf
    value_destroy_fun := vdf
    key_count := 0
    key_num := INITIAL_SIZE
    key_ratio := KEY_RATIO }

/-- hash_table_new of hashtable.c. -/
def hash_table_new (mode : Mode) : Table :=
  hash_table_new_full mode false false

/-- hash_table_element_delete_internal of hashtable.c, restricted to its
observable effect in this model: the list of destroy-callback invocations.
In MODE_COPY both buffers are freed and no callback fires; in MODE_VALUEREF
the value callback fires when notifying; in MODE_ALLREF both callbacks fire
when notifying. -/
def hash_table_element_delete_internal (t : Table) (e : Element)
    (notify : Bool) : List Event :=
  match t.mode with
  | .MODE_COPY => []
  | .MODE_VALUEREF =>
      if notify ∧ t.value_destroy_fun then [.valueDestroy e.value] else []
  | .MODE_ALLREF =>
      if notify then
        (if t.key_destroy_fun then [.keyDestroy e.key] else []) ++
          (if t.value_destroy_fun then [.valueDestroy e.value] else [])
      else []

/-- The conflict walk of hash_table_add on the part of the chain after the
head: the loop starts from `iter = store_house[hash]` but only ever examines
`iter->next`, so this function receives the chain minus its head.  It
returns the updated tail together with the replaced element, if any: the
first element whose key matches is unlinked (`iter->next = element;
element->next = to_delete->next`) and returned for deletion; if no element
matches, the new element is appended at the end (`iter->next = element`). -/
def addChainTail (probe : List Nat) (elem : Element) :
    List Element → List Element × Option Element
  | [] => ([elem], none)
  | next :: rest =>
      if keyMatches next.key probe then (elem :: rest, some next)
      else
        let r := addChainTail probe elem rest
        (next :: r.1, r.2)

/-- The migration loop of hash_table_resize: every element of the old store
is re-added through the supplied add function (hashtable.c calls
`hash_table_add`); the freed element structs are not modelled.  Any
undefined behaviour of an inner add propagates. -/
def migrateWith
    (adder : Table → List Nat → Nat → Nat → Option (Table × Int × List Event)) :
    Table → List Element → Option (Table × List Event)
  | t, [] => some (t, [])
  | t, e :: es =>
      match adder t e.key e.value e.value_len with
      | none => none
      | some (t1, _, evs) =>
          match migrateWith adder t1 es with
          | none => none
          | some (t2, evs2) => some (t2, evs ++ evs2)

/-- hash_table_resize of hashtable.c, parameterised by the add function used
during migration.  It allocates a fresh bucket array of `len` slots, forces
MODE_ALLREF, sets `key_num = len` (a `uint16_t` assignment, hence modulo
65536) and `key_count = 0`, walks the first `key_num` buckets of the old
store in order re-adding every element of every chain, restores the
original mode, and returns 0. -/
def resizeWith
    (adder : Table → List Nat → Nat → Nat → Option (Table × Int × List Event))
    (t : Table) (len : Nat) : Option (Table × Int × List Event) :=
  let old_chains := (t.store_house.take t.key_num).flatten
  let t1 : Table :=
    { t with store_house := List.replicate len []
             mode := .MODE_ALLREF
             key_num := len % 65536
             key_count := 0 }
  match migrateWith adder t1 old_chains with
  | none => none
  | some (t2, evs) => some ({ t2 with mode := t.mode }, 0, evs)

/-- The insertion logic of hash_table_add after the growth check: hash the
key (the caller has ensured `key_num` is nonzero), allocate and fill the
element per the mode (pure in this model), and run the chain logic: an
empty bucket receives the element as its head and `key_count` is
incremented; otherwise the conflict walk `addChainTail` runs on the chain
after the head - the head itself is never compared - replacing the first
matching later entry (deleting the old one with notification, `key_count`
unchanged) or appending at the end (`key_count` incremented).  The return
value is 0. -/
def addStep (t1 : Table) (key : List Nat) (value : Nat) (value_len : Nat) :
    Table × Int × List Event :=
  let hash := tableHash t1 key
  let element : Element := ⟨key, value, value_len⟩
  match bucketAt t1 hash with
  | [] =>
      ({ t1 with
          store_house := t1.store_house.set hash [element]
          key_count := t1.key_count + 1 }, 0, [])
  | c0 :: cs =>
      match addChainTail key element cs with
      | (cs1, some d) =>
          ({ t1 with store_house := t1.store_house.set hash (c0 :: cs1) },
           0, hash_table_element_delete_internal t1 d true)
      | (cs1, none) =>
          ({ t1 with
              store_house := t1.store_house.set hash (c0 :: cs1)
              key_count := t1.key_count + 1 }, 0, [])

/-- hash_table_add of hashtable.c, fuel-indexed (the fuel only bounds the
nesting depth of automatic resizes; see the header comment).  Steps, in
source order: the growth check `key_count / key_num >= key_ratio` (whose
division is undefined when `key_num = 0`) triggering a resize to
`2 * key_num`, then the insertion logic `addStep` (whose hash is undefined
when the resized `key_num` is 0). -/
def addF : Nat → Table → List Nat → Nat → Nat → Option (Table × Int × List Event)
  | 0, _, _, _, _ => none
  | fuel + 1, t, key, value, value_len =>
      if t.key_num = 0 then none
      else
        let grown : Option (Table × List Event) :=
          if t.key_ratio ≤ t.key_count / t.key_num then
            match resizeWith (addF fuel) t (t.key_num * 2) with
            | none => none
            | some (t1, _, evs) => some (t1, evs)
          else some (t, [])
        match grown with
        | none => none
        | some (t1, evs0) =>
            if t1.key_num = 0 then none
            else
              let r := addStep t1 key value value_len
              some (r.1, r.2.1, evs0 ++ r.2.2)

/-- hash_table_add at the public entry point. -/
def hash_table_add (t : Table) (key : List Nat) (value : Nat)
    (value_len : Nat) : Option (Table × Int × List Event) :=
  addF FUEL t key value value_len

/-- hash_table_resize at the public entry point. -/
def hash_table_resize (t : Table) (len : Nat) : Option (Table × Int × List Event) :=
  resizeWith (addF FUEL) t len

/-- The search-and-unlink walk of hash_table_remove_internal: the first
element of the chain whose key matches (the head included, unlike the add
walk) is unlinked; the function returns the remaining chain and the removed
element. -/
def removeChain (probe : List Nat) :
    List Element → Option (List Element × Element)
  | [] => none
  | e :: rest =>
      if keyMatches e.key probe then some (rest, e)
      else
        match removeChain probe rest with
        | none => none
        | some (rest1, d) => some (e :: rest1, d)

/-- hash_table_remove_internal of hashtable.c.  The shrink check
`(key_num / key_count >= key_ratio) && notify` evaluates the division
first, so a call on a table with `key_count == 0` divides by zero
(undefined behaviour, modelled as `none`) for remove and steal alike; when
the check passes (only possible with `notify`), the table is resized to
`key_num / 2` before the search.  The search hashes the key (undefined if
`key_num = 0`), walks the chain for the first exact match, unlinks it,
deletes it with the given notification flag, decrements `key_count` and
returns 0; otherwise it returns -1. -/
def hash_table_remove_internal (t : Table) (key : List Nat) (notify : Bool) :
    Option (Table × Int × List Event) :=
  if t.key_count = 0 then none
  else
    let shrunk : Option (Table × List Event) :=
      if t.key_ratio ≤ t.key_num / t.key_count ∧ notify then
        match resizeWith (addF FUEL) t (t.key_num / 2) with
        | none => none
        | some (t1, _, evs) => some (t1, evs)
      else some (t, [])
    match shrunk with
    | none => none
    | some (t1, evs0) =>
        if t1.key_num = 0 then none
        else
          let hash := tableHash t1 key
          match removeChain key (bucketAt t1 hash) with
          | none => some (t1, -1, evs0)
          | some (chain1, d) =>
              some ({ t1 with
                        store_house := t1.store_house.set hash chain1
                        key_count := t1.key_count - 1 }, 0,
                    evs0 ++ hash_table_element_delete_internal t1 d notify)

/-- hash_table_remove of hashtable.c. -/
def hash_table_remove (t : Table) (key : List Nat) :
    Option (Table × Int × List Event) :=
  hash_table_remove_internal t key true

/-- hash_table_steal of hashtable.c. -/
def hash_table_steal (t : Table) (key : List Nat) :
    Option (Table × Int × List Event) :=
  hash_table_remove_internal t key false

/-- The search walk of hash_table_lookup on one chain: the value of the
first element whose key matches, the null pointer (0) otherwise. -/
def lookupChain (probe : List Nat) : List Element → Nat
  | [] => 0
  | e :: rest =>
      if keyMatches e.key probe then e.value else lookupChain probe rest

/-- hash_table_lookup of hashtable.c: hash the key, walk the bucket chain
skipping entries of different key length, return the value of the first
byte-equal entry or NULL (0). -/
def hash_table_lookup (t : Table) (key : List Nat) : Nat :=
  lookupChain key (bucketAt t (tableHash t key))

/-- The search walk of hash_table_has_key on one chain. -/
def hasKeyChain (probe : List Nat) : List Element → Int
  | [] => 0
  | e :: rest =>
      if keyMatches e.key probe then 1 else hasKeyChain probe rest

/-- hash_table_has_key of hashtable.c: same hash and same
equal-length-then-byte-compare walk as lookup, returning 1 when the key is
found and 0 otherwise. -/
def hash_table_has_key (t : Table) (key : List Nat) : Int :=
  hasKeyChain key (bucketAt t (tableHash t key))

/-- hash_table_len of hashtable.c. -/
def hash_table_len (t : Table) : Nat :=
  t.key_count

/-- hash_table_count_keys of hashtable.c: the debugging walk that counts
every element reachable from the first `key_num` buckets. -/
def hash_table_count_keys (t : Table) : Nat :=
  ((List.range t.key_num).map (fun i => (bucketAt t i).length)).sum

/-- Modelled from the spec: `hash_table_replace` is declared in hashtable.h
("Replace an existing value of the hash without calling the destroy
function given at hash_table_new_full. otherwise behaves just like add.
Precondition: Key must have an existing entry in the table.") and used by
the tests, but no definition of it exists in src/.  Following spec section
4.2: it behaves like insert - the same growth check and the same
equal-length-then-byte-compare chain walk - but the walk looks for the
existing entry anywhere in the chain, splices the new element in place of
it, and skips invoking the value destroy callback on the replaced entry
(storage is still freed/copied per mode).  This function is that walk on
one chain: it returns the updated chain and the replaced element, or
`none` when the key is absent. -/
def replaceChain (probe : List Nat) (elem : Element) :
    List Element → Option (List Element × Element)
  | [] => none
  | e :: rest =>
      if keyMatches e.key probe then some (elem :: rest, e)
      else
        match replaceChain probe elem rest with
        | none => none
        | some (rest1, d) => some (e :: rest1, d)

/-- Modelled from the spec: the destroy-callback invocations when a replace
deletes the superseded entry - identical to
`hash_table_element_delete_internal` with notification except that the
value destroy callback is skipped (spec section 4.2: "skip invoking the
*value* destroy callback on the replaced entry (still frees/copies per
mode's storage-management rules)"). -/
def replaceDeleteEvents (t : Table) (e : Element) : List Event :=
  match t.mode with
  | .MODE_COPY => []
  | .MODE_VALUEREF => []
  | .MODE_ALLREF =>
      if t.key_destroy_fun then [.keyDestroy e.key] else []

/-- Modelled from the spec: the insertion step of `hash_table_replace`
(missing from src/, see `replaceChain`).  Like `addStep` except that the
walk finds an existing entry anywhere in the chain (spec section 4.2 step
4), splices the new element in place of it, and the value destroy callback
is not invoked on the replaced entry; when the key is absent it appends,
like add. -/
def replaceStep (t1 : Table) (key : List Nat) (value : Nat)
    (value_len : Nat) : Table × Int × List Event :=
  let hash := tableHash t1 key
  let element : Element := ⟨key, value, value_len⟩
  match replaceChain key element (bucketAt t1 hash) with
  | some (chain1, d) =>
      ({ t1 with store_house := t1.store_house.set hash chain1 },
       0, replaceDeleteEvents t1 d)
  | none =>
      ({ t1 with
          store_house :=
            t1.store_house.set hash (bucketAt t1 hash ++ [element])
          key_count := t1.key_count + 1 }, 0, [])

/-- Modelled from the spec: `hash_table_replace` (missing from src/, see
`replaceChain` and `replaceStep`): the same growth check as add followed by
the replacing insertion step. -/
def hash_table_replace (t : Table) (key : List Nat) (value : Nat)
    (value_len : Nat) : Option (Table × Int × List Event) :=
  if t.key_num = 0 then none
  else
    let grown : Option (Table × List Event) :=
      if t.key_ratio ≤ t.key_count / t.key_num then
        match resizeWith (addF FUEL) t (t.key_num * 2) with
        | none => none
        | some (t1, _, evs) => some (t1, evs)
      else some (t, [])
    match grown with
    | none => none
    | some (t1, evs0) =>
        if t1.key_num = 0 then none
        else
          let r := replaceStep t1 key value value_len
          some (r.1, r.2.1, evs0 ++ r.2.2)

/-! ## Iterator -/

/-- The iterator cursor: `iter_pos` lives in the table struct in C;
`element_index` is the file-scope `static uint16_t` inside
`hash_table_iter_keys_next`, which `hash_table_iter_keys_reset` does not
touch. -/
structure IterState where
  iter_pos : Nat
  element_index : Nat
deriving DecidableEq, Repr

/-- The forward scan loop shared by reset and next:
`while (iter_pos <= key_num && store_house[iter_pos] == NULL) iter_pos++`.
Besides the final position it returns, as instrumentation, the list of
bucket indices at which the loop reads `store_house`; note the condition is
`<=`, so index `key_num` - one slot past the end of the bucket array - is
read whenever the scan gets that far (`bucketAt` renders that out-of-bounds
read as reading an empty chain). -/
def scanLoop (t : Table) (pos : Nat) : Nat × List Nat :=
  if h : pos ≤ t.key_num then
    if bucketAt t pos = [] then
      let r := scanLoop t (pos + 1)
      (r.1, pos :: r.2)
    else (pos, [pos])
  else (pos, [])
termination_by t.key_num + 1 - pos

/-- hash_table_iter_keys_reset of hashtable.c: set `iter_pos` to 0 and, when
the table is non-empty, scan forward to the first non-empty bucket.  The
static `element_index` is not reset.  The second component is the
instrumented list of probed bucket indices. -/
def hash_table_iter_keys_reset (t : Table) (s : IterState) :
    IterState × List Nat :=
  if 0 < t.key_count then
    let r := scanLoop t 0
    ({ s with iter_pos := r.1 }, r.2)
  else ({ s with iter_pos := 0 }, [])

/-- hash_table_iter_keys_is_done of hashtable.c. -/
def hash_table_iter_keys_is_done (t : Table) (s : IterState) : Bool :=
  t.key_count = 0 || t.key_num < s.iter_pos

/-- hash_table_iter_keys_next of hashtable.c: walk `element_index` steps
into the chain at `iter_pos` (dereferencing a null pointer, modelled as
`none`, if the chain is shorter); return that element and either advance
`element_index` within the chain or, at the chain end, reset
`element_index` to 0 and scan forward from `iter_pos + 1`.  The third
component is the instrumented list of bucket indices probed by the scan. -/
def hash_table_iter_keys_next (t : Table) (s : IterState) :
    Option (List Nat × IterState × List Nat) :=
  match (bucketAt t s.iter_pos)[s.element_index]? with
  | none => none
  | some current =>
      if s.element_index + 1 = (bucketAt t s.iter_pos).length then
        let r := scanLoop t (s.iter_pos + 1)
        some (current.key, ⟨r.1, 0⟩, r.2)
      else
        some (current.key, ⟨s.iter_pos, s.element_index + 1⟩, [])

/-- A full iteration pass: call next until is_done holds, collecting the
returned keys and the probed bucket indices; the fuel bounds the number of
steps (`none` when it runs out or when a next call hits undefined
behaviour). -/
def iterPassF : Nat → Table → IterState → Option (List (List Nat) × List Nat)
  | 0, _, _ => none
  | fuel + 1, t, s =>
      if hash_table_iter_keys_is_done t s then some ([], [])
      else
        match hash_table_iter_keys_next t s with
        | none => none
        | some (k, s1, probes) =>
            match iterPassF fuel t s1 with
            | none => none
            | some (ks, ps) => some (k :: ks, probes ++ ps)

/-- The pass of the testable iteration property: reset from a fresh cursor
(the static `element_index` is 0 at process start and again after every
completed pass) followed by next-until-done; returns the visited keys and
every bucket index probed by the scans, reset included. -/
def fullIterPass (t : Table) : Option (List (List Nat) × List Nat) :=
  let r := hash_table_iter_keys_reset t ⟨0, 0⟩
  match iterPassF (t.key_count + 1) t r.1 with
  | none => none
  | some (ks, ps) => some (ks, r.2 ++ ps)

/-! ## Operation sequences -/

/-- One call of the mutating API, for stating properties over arbitrary
call sequences. -/
inductive Op where
  | addOp (key : List Nat) (value : Nat) (value_len : Nat)
  | replaceOp (key : List Nat) (value : Nat) (value_len : Nat)
  | removeOp (key : List Nat)
  | stealOp (key : List Nat)
  | resizeOp (len : Nat)
deriving DecidableEq, Repr

/-- Execute one operation, propagating undefined behaviour. -/
def execOp (t : Table) : Op → Option Table
  | .addOp k v vl =>
      match hash_table_add t k v vl with
      | none => none
      | some (t1, _, _) => some t1
  | .replaceOp k v vl =>
      match hash_table_replace t k v vl with
      | none => none
      | some (t1, _, _) => some t1
  | .removeOp k =>
      match hash_table_remove t k with
      | none => none
      | some (t1, _, _) => some t1
  | .stealOp k =>
      match hash_table_steal t k with
      | none => none
      | some (t1, _, _) => some t1
  | .resizeOp len =>
      match hash_table_resize t len with
      | none => none
      | some (t1, _, _) => some t1

/-- Execute a sequence of operations. -/
def execList (t : Table) : List Op → Option Table
  | [] => some t
  | op :: ops =>
      match execOp t op with
      | none => none
      | some t1 => execList t1 ops

/-- Whether an operation leaves the stored entry for key `k` alone: it is
not an insert, remove or steal of `k` (resizes are always allowed; replace
is not among the operations considered). -/
def opAvoids (op : Op) (k : List Nat) : Bool :=
  match op with
  | .addOp k2 _ _ => k2 ≠ k
  | .replaceOp _ _ _ => false
  | .removeOp k2 => k2 ≠ k
  | .stealOp k2 => k2 ≠ k
  | .resizeOp _ => true

/-! ## Invariants and derived views -/

/-- The elements stored in the reachable part of the table: the chains of
the first `key_num` buckets, in bucket order then chain order (exactly the
order in which `hash_table_resize` migrates them and in which a full
iteration pass visits them). -/
def entriesList (t : Table) : List Element :=
  (t.store_house.take t.key_num).flatten

/-- The stored keys, in the same order. -/
def entryKeys (t : Table) : List (List Nat) :=
  (entriesList t).map (·.key)

/-- The stored entries whose key matches `k`. -/
def keyEntries (t : Table) (k : List Nat) : List Element :=
  (entriesList t).filter (fun e => keyMatches e.key k)

/-- The number of stored entries whose key matches `k`. -/
def keyOccs (t : Table) (k : List Nat) : Nat :=
  (keyEntries t k).length

/-- The stored elements of the buckets from index `p` on (reachable part). -/
def flattenFrom (t : Table) (p : Nat) : List Element :=
  ((t.store_house.take t.key_num).drop p).flatten

/-- The elements an iteration pass still has to visit from cursor
(`pos`, `ei`): the rest of the current chain, then the chains of the later
buckets. -/
def restEntries (t : Table) (pos ei : Nat) : List Element :=
  (bucketAt t pos).drop ei ++ flattenFrom t (pos + 1)

/-- The bucket count does not exceed the allocated store (true of every
table the API can build: resize allocates `len` slots and sets
`key_num = len % 65536`). -/
def KeyNumLe (t : Table) : Prop :=
  t.key_num ≤ t.store_house.length

/-- Every allocated slot past `key_num` holds the empty chain (true of
every table the API can build: elements are only ever stored at indices
below `key_num`). -/
def BeyondEmpty (t : Table) : Prop :=
  ∀ i, i < t.store_house.length → t.key_num ≤ i → bucketAt t i = []

/-- Every stored element sits in the bucket selected by the current hash of
its key. -/
def Placement (t : Table) : Prop :=
  ∀ i, i < t.key_num → ∀ e ∈ bucketAt t i, tableHash t e.key = i

/-- key_count equals the number of reachable chain entries (the property
hash_table_count_keys checks). -/
def CountInv (t : Table) : Prop :=
  t.key_count = hash_table_count_keys t

/-- The structural part of well-formedness, preserved by every operation of
the API (duplicate keys included). -/
def Struct (t : Table) : Prop :=
  KeyNumLe t ∧ BeyondEmpty t ∧ Placement t ∧ CountInv t ∧ t.key_num < 65536

/-- No two stored entries have the same `(key bytes, key_len)`. -/
def KeysNodup (t : Table) : Prop :=
  (entryKeys t).Nodup

/-- Full well-formedness: the structural invariants plus key uniqueness and
a positive bucket count. -/
def WF (t : Table) : Prop :=
  Struct t ∧ KeysNodup t ∧ 0 < t.key_num

instance (t : Table) : Decidable (KeyNumLe t) := by
  unfold KeyNumLe; infer_instance

instance (t : Table) : Decidable (BeyondEmpty t) := by
  unfold BeyondEmpty; infer_instance

instance (t : Table) : Decidable (Placement t) := by
  unfold Placement; infer_instance

instance (t : Table) : Decidable (CountInv t) := by
  unfold CountInv; infer_instance

instance (t : Table) : Decidable (Struct t) := by
  unfold Struct; infer_instance

instance (t : Table) : Decidable (KeysNodup t) := by
  unfold KeysNodup; infer_instance

instance (t : Table) : Decidable (WF t) := by
  unfold WF; infer_instance

/-- Specification of an add function strong enough to carry the structural
invariants through a resize migration, for any table (duplicate keys
included): a successful call preserves `Struct`, does not disturb the
stored entries of absent or singly-stored other keys, and stores exactly
the new element for a previously absent key. -/
def StructAdder
    (adder : Table → List Nat → Nat → Nat → Option (Table × Int × List Event)) :
    Prop :=
  ∀ t k v vl out, Struct t → adder t k v vl = some out →
    Struct out.1 ∧ out.1.mode = t.mode ∧ out.1.key_ratio = t.key_ratio ∧
    (∀ k2, k2 ≠ k → keyEntries t k2 = [] → keyEntries out.1 k2 = []) ∧
    (∀ k2 e, k2 ≠ k → keyEntries t k2 = [e] → keyEntries out.1 k2 = [e]) ∧
    (keyEntries t k = [] → keyEntries out.1 k = [⟨k, v, vl⟩])

/-- Specification of an add function on well-formed tables and fresh keys:
a successful call returns 0 with no callback events, keeps the table
well-formed, increments the count and adds exactly the new element. -/
def WFAdder
    (adder : Table → List Nat → Nat → Nat → Option (Table × Int × List Event)) :
    Prop :=
  ∀ t k v vl out, Struct t → KeysNodup t → keyEntries t k = [] →
    adder t k v vl = some out →
    Struct out.1 ∧ KeysNodup out.1 ∧ out.2.1 = 0 ∧ out.2.2 = [] ∧
    out.1.mode = t.mode ∧ out.1.key_ratio = t.key_ratio ∧
    out.1.key_count = t.key_count + 1 ∧
    List.Perm (entriesList out.1) (⟨k, v, vl⟩ :: entriesList t)

/-! ## Helper lemmas about lists -/

theorem take_set_comm {α : Type} (l : List α) (i : Nat) (c : α) (n : Nat) :
    (l.set i c).take n = (l.take n).set i c := by
  induction l generalizing i n with
  | nil => simp
  | cons a l ih =>
      cases i with
      | zero =>
          cases n with
          | zero => simp
          | succ n => simp
      | succ i =>
          cases n with
          | zero => simp
          | succ n => simpa using ih i n

theorem getD_set_self {α : Type} (l : List α) (i : Nat) (c d : α)
    (h : i < l.length) : (l.set i c).getD i d = c := by
  simp [List.getD_eq_getElem?_getD, List.getElem?_set_self h]

theorem getD_set_ne {α : Type} (l : List α) {i j : Nat} (c d : α)
    (h : i ≠ j) : (l.set i c).getD j d = l.getD j d := by
  simp [List.getD_eq_getElem?_getD, List.getElem?_set_ne h]

theorem getD_take_of_lt {α : Type} (l : List α) {i n : Nat} (d : α)
    (h : i < n) : (l.take n).getD i d = l.getD i d := by
  simp [List.getD_eq_getElem?_getD, List.getElem?_take, h]

theorem flatten_set {α : Type} (L : List (List α)) (h : Nat) (c : List α)
    (hl : h < L.length) :
    (L.set h c).flatten = (L.take h).flatten ++ c ++ (L.drop (h + 1)).flatten := by
  rw [List.set_eq_take_cons_drop _ hl]
  simp

theorem drop_eq_getD_cons {α : Type} (L : List (List α)) (h : Nat)
    (hl : h < L.length) : L.drop h = L.getD h [] :: L.drop (h + 1) := by
  rw [List.getD_eq_getElem?_getD, List.getElem?_eq_getElem hl]
  simp [List.getElem_cons_drop]

theorem flatten_decomp {α : Type} (L : List (List α)) (h : Nat)
    (hl : h < L.length) :
    L.flatten = (L.take h).flatten ++ L.getD h [] ++ (L.drop (h + 1)).flatten := by
  conv_lhs => rw [← List.take_append_drop h L, drop_eq_getD_cons L h hl]
  simp

theorem flatten_eq_of_single {α : Type} (L : List (List α)) (h : Nat)
    (ho : ∀ j, j < L.length → j ≠ h → L.getD j [] = []) :
    L.flatten = L.getD h [] := by
  induction L generalizing h with
  | nil => simp [List.getD]
  | cons a L ih =>
      cases h with
      | zero =>
          have hL : L.flatten = [] := by
            rw [List.flatten_eq_nil_iff]
            intro l hlmem
            obtain ⟨j, hj, hjl⟩ := List.getElem_of_mem hlmem
            have := ho (j + 1) (by simpa using hj) (by simp)
            rw [List.getD_eq_getElem?_getD, List.getElem?_cons_succ,
              List.getElem?_eq_getElem hj] at this
            simpa [hjl] using this
          simp [hL, List.getD]
      | succ h =>
          have ha : a = [] := by
            have := ho 0 (by simp) (by simp)
            simpa [List.getD] using this
          have := ih h (fun j hj hjh => by
            have := ho (j + 1) (by simpa using hj) (by simpa using hjh)
            simpa [List.getD_eq_getElem?_getD] using this)
          simpa [ha, List.getD_eq_getElem?_getD] using this

theorem getD_map_filter {α : Type} (p : α → Bool) (L : List (List α)) (j : Nat) :
    (L.map (List.filter p)).getD j [] = (L.getD j []).filter p := by
  rcases hj : L[j]? with _ | a
  · simp [List.getD_eq_getElem?_getD, List.getElem?_map, hj]
  · simp [List.getD_eq_getElem?_getD, List.getElem?_map, hj]

theorem set_of_getElem?_eq {α : Type} (l : List α) (i : Nat) (a : α)
    (h : l[i]? = some a) : l.set i a = l := by
  induction l generalizing i with
  | nil => simp at h
  | cons b l ih =>
      cases i with
      | zero => simp at h; simp [h]
      | succ i => simp at h; simp [ih i h]

/-! ## Helper lemmas about key comparison and the chain walks -/

theorem keyMatches_iff {a b : List Nat} : keyMatches a b = true ↔ a = b := by
  unfold keyMatches
  constructor
  · intro h
    simp only [Bool.and_eq_true, beq_iff_eq] at h
    exact h.2
  · intro h
    subst h
    simp

theorem keyMatches_self (a : List Nat) : keyMatches a a = true :=
  keyMatches_iff.mpr rfl

theorem keyMatches_false_iff {a b : List Nat} :
    keyMatches a b = false ↔ a ≠ b := by
  constructor
  · intro h he
    subst he
    rw [keyMatches_self] at h
    cases h
  · intro hne
    rcases hh : keyMatches a b with _ | _
    · rfl
    · exact absurd (keyMatches_iff.mp hh) hne

theorem addChainTail_of_no_match {k : List Nat} {elem : Element}
    {cs : List Element} (h : ∀ e ∈ cs, keyMatches e.key k = false) :
    addChainTail k elem cs = (cs ++ [elem], none) := by
  induction cs with
  | nil => rfl
  | cons e cs ih =>
      have he := h e (by simp)
      simp [addChainTail, he, ih (fun e2 he2 => h e2 (by simp [he2]))]

theorem addChainTail_some_decomp {k : List Nat} {elem : Element}
    {cs cs1 : List Element} {d : Element} :
    addChainTail k elem cs = (cs1, some d) →
    ∃ pre post, cs = pre ++ d :: post ∧ cs1 = pre ++ elem :: post ∧
      (∀ e ∈ pre, keyMatches e.key k = false) ∧ keyMatches d.key k = true := by
  induction cs generalizing cs1 with
  | nil =>
      intro h
      simp [addChainTail] at h
  | cons e cs ih =>
      intro h
      rcases hm : keyMatches e.key k with _ | _
      · have hstep : addChainTail k elem (e :: cs) =
            (e :: (addChainTail k elem cs).1, (addChainTail k elem cs).2) := by
          simp [addChainTail, hm]
        rw [hstep] at h
        have h1 : e :: (addChainTail k elem cs).1 = cs1 := congrArg Prod.fst h
        have h2 : (addChainTail k elem cs).2 = some d := congrArg Prod.snd h
        obtain ⟨pre, post, hcs, hcs1, hpre, hd⟩ :=
          ih (by rw [← h2])
        refine ⟨e :: pre, post, by simp [hcs], ?_, ?_, hd⟩
        · rw [← h1, hcs1]
          rfl
        · intro e2 he2
          rcases List.mem_cons.mp he2 with rfl | hmem
          · exact hm
          · exact hpre e2 hmem
      · have hstep : addChainTail k elem (e :: cs) = (elem :: cs, some e) := by
          simp [addChainTail, hm]
        rw [hstep] at h
        have h1 : elem :: cs = cs1 := congrArg Prod.fst h
        have h2 : (some e : Option Element) = some d := congrArg Prod.snd h
        have hed : e = d := by simpa using h2
        exact ⟨[], cs, by simp [hed], by simp [← h1], by simp, hed ▸ hm⟩

theorem addChainTail_none_decomp {k : List Nat} {elem : Element}
    {cs cs1 : List Element} :
    addChainTail k elem cs = (cs1, none) →
    cs1 = cs ++ [elem] ∧ ∀ e ∈ cs, keyMatches e.key k = false := by
  induction cs generalizing cs1 with
  | nil =>
      intro h
      have h1 : [elem] = cs1 := congrArg Prod.fst h
      exact ⟨h1.symm, by simp⟩
  | cons e cs ih =>
      intro h
      rcases hm : keyMatches e.key k with _ | _
      · have hstep : addChainTail k elem (e :: cs) =
            (e :: (addChainTail k elem cs).1, (addChainTail k elem cs).2) := by
          simp [addChainTail, hm]
        rw [hstep] at h
        have h1 : e :: (addChainTail k elem cs).1 = cs1 := congrArg Prod.fst h
        have h2 : (addChainTail k elem cs).2 = none := congrArg Prod.snd h
        obtain ⟨hcs1, hall⟩ := ih (by rw [← h2])
        constructor
        · rw [← h1, hcs1]
          rfl
        · intro e2 he2
          rcases List.mem_cons.mp he2 with rfl | hmem
          · exact hm
          · exact hall e2 hmem
      · have hstep : addChainTail k elem (e :: cs) = (elem :: cs, some e) := by
          simp [addChainTail, hm]
        rw [hstep] at h
        have h2 : (some e : Option Element) = none := congrArg Prod.snd h
        cases h2

theorem removeChain_none_iff {k : List Nat} {ch : List Element} :
    removeChain k ch = none ↔ ∀ e ∈ ch, keyMatches e.key k = false := by
  induction ch with
  | nil => simp [removeChain]
  | cons e ch ih =>
      rcases hm : keyMatches e.key k with _ | _
      · rw [removeChain, hm]
        simp only [Bool.false_eq_true, if_false]
        constructor
        · intro h e2 he2
          rcases List.mem_cons.mp he2 with rfl | hmem
          · exact hm
          · rcases hr : removeChain k ch with _ | p
            · exact ih.mp hr e2 hmem
            · rw [hr] at h
              cases h
        · intro hall
          rw [ih.mpr (fun e2 he2 => hall e2 (by simp [he2]))]
      · rw [removeChain, hm]
        simp only [if_true]
        constructor
        · intro h
          cases h
        · intro hall
          have := hall e (by simp)
          rw [hm] at this
          cases this

theorem removeChain_some_decomp {k : List Nat} {ch ch1 : List Element}
    {d : Element} :
    removeChain k ch = some (ch1, d) →
    ∃ pre post, ch = pre ++ d :: post ∧ ch1 = pre ++ post ∧
      (∀ e ∈ pre, keyMatches e.key k = false) ∧ keyMatches d.key k = true := by
  induction ch generalizing ch1 with
  | nil =>
      intro h
      simp [removeChain] at h
  | cons e ch ih =>
      intro h
      rcases hm : keyMatches e.key k with _ | _
      · rw [removeChain, hm] at h
        simp only [Bool.false_eq_true, if_false] at h
        rcases hr : removeChain k ch with _ | p
        · rw [hr] at h
          cases h
        · rw [hr] at h
          have h1 : e :: p.1 = ch1 := by
            have := congrArg (Option.map Prod.fst) h
            simpa using this
          have h2 : p.2 = d := by
            have := congrArg (Option.map Prod.snd) h
            simpa using this
          obtain ⟨pre, post, hch, hch1, hpre, hd⟩ :=
            ih (by rw [hr, ← h2])
          refine ⟨e :: pre, post, by simp [hch], ?_, ?_, hd⟩
          · rw [← h1, hch1]
            rfl
          · intro e2 he2
            rcases List.mem_cons.mp he2 with rfl | hmem
            · exact hm
            · exact hpre e2 hmem
      · rw [removeChain, hm] at h
        simp only [if_true, Option.some.injEq] at h
        have h1 : ch = ch1 := congrArg Prod.fst h
        have h2 : e = d := congrArg Prod.snd h
        exact ⟨[], ch, by simp [h2], by simp [h1], by simp, h2 ▸ hm⟩

theorem replaceChain_none_iff {k : List Nat} {elem : Element}
    {ch : List Element} :
    replaceChain k elem ch = none ↔ ∀ e ∈ ch, keyMatches e.key k = false := by
  induction ch with
  | nil => simp [replaceChain]
  | cons e ch ih =>
      rcases hm : keyMatches e.key k with _ | _
      · rw [replaceChain, hm]
        simp only [Bool.false_eq_true, if_false]
        constructor
        · intro h e2 he2
          rcases List.mem_cons.mp he2 with rfl | hmem
          · exact hm
          · rcases hr : replaceChain k elem ch with _ | p
            · exact ih.mp hr e2 hmem
            · rw [hr] at h
              cases h
        · intro hall
          rw [ih.mpr (fun e2 he2 => hall e2 (by simp [he2]))]
      · rw [replaceChain, hm]
        simp only [if_true]
        constructor
        · intro h
          cases h
        · intro hall
          have := hall e (by simp)
          rw [hm] at this
          cases this

theorem replaceChain_some_decomp {k : List Nat} {elem : Element}
    {ch ch1 : List Element} {d : Element} :
    replaceChain k elem ch = some (ch1, d) →
    ∃ pre post, ch = pre ++ d :: post ∧ ch1 = pre ++ elem :: post ∧
      (∀ e ∈ pre, keyMatches e.key k = false) ∧ keyMatches d.key k = true := by
  induction ch generalizing ch1 with
  | nil =>
      intro h
      simp [replaceChain] at h
  | cons e ch ih =>
      intro h
      rcases hm : keyMatches e.key k with _ | _
      · rw [replaceChain, hm] at h
        simp only [Bool.false_eq_true, if_false] at h
        rcases hr : replaceChain k elem ch with _ | p
        · rw [hr] at h
          cases h
        · rw [hr] at h
          have h1 : e :: p.1 = ch1 := by
            have := congrArg (Option.map Prod.fst) h
            simpa using this
          have h2 : p.2 = d := by
            have := congrArg (Option.map Prod.snd) h
            simpa using this
          obtain ⟨pre, post, hch, hch1, hpre, hd⟩ :=
            ih (by rw [hr, ← h2])
          refine ⟨e :: pre, post, by simp [hch], ?_, ?_, hd⟩
          · rw [← h1, hch1]
            rfl
          · intro e2 he2
            rcases List.mem_cons.mp he2 with rfl | hmem
            · exact hm
            · exact hpre e2 hmem
      · rw [replaceChain, hm] at h
        simp only [if_true, Option.some.injEq] at h
        have h1 : elem :: ch = ch1 := congrArg Prod.fst h
        have h2 : e = d := congrArg Prod.snd h
        exact ⟨[], ch, by simp [h2], by simp [← h1], by simp, h2 ▸ hm⟩

theorem lookupChain_eq_filter (k : List Nat) (ch : List Element) :
    lookupChain k ch =
      match ch.filter (fun e => keyMatches e.key k) with
      | [] => 0
      | e :: _ => e.value := by
  induction ch with
  | nil => rfl
  | cons e ch ih =>
      rcases hm : keyMatches e.key k with _ | _
      · rw [lookupChain, hm]
        simp only [Bool.false_eq_true, if_false, List.filter_cons, hm]
        exact ih
      · rw [lookupChain, hm]
        simp [List.filter_cons, hm]

theorem hasKeyChain_eq_filter (k : List Nat) (ch : List Element) :
    hasKeyChain k ch =
      if ch.filter (fun e => keyMatches e.key k) = [] then 0 else 1 := by
  induction ch with
  | nil => rfl
  | cons e ch ih =>
      rcases hm : keyMatches e.key k with _ | _
      · rw [hasKeyChain, hm]
        simp only [Bool.false_eq_true, if_false, List.filter_cons, hm]
        exact ih
      · rw [hasKeyChain, hm]
        simp [List.filter_cons, hm]

theorem lookupChain_of_no_match {k : List Nat} {ch : List Element}
    (h : ch.filter (fun e => keyMatches e.key k) = []) :
    lookupChain k ch = 0 := by
  rw [lookupChain_eq_filter, h]

/-! ## Helper lemmas about the derived table views -/

theorem sum_range_eq_length_flatten {α : Type} (l : List (List α)) (n : Nat)
    (h : n ≤ l.length) :
    ((List.range n).map (fun i => (l.getD i []).length)).sum =
      ((l.take n).flatten).length := by
  induction n with
  | zero => simp
  | succ n ih =>
      have hn : n < l.length := h
      have hsome : l[n]? = some (l.getD n []) := by
        rw [List.getElem?_eq_getElem hn]
        rw [List.getD_eq_getElem?_getD, List.getElem?_eq_getElem hn]
        rfl
      rw [List.range_succ, List.take_succ, hsome]
      simp only [List.map_append, List.sum_append, Option.toList_some,
        List.flatten_append, List.length_append, List.map_cons, List.map_nil,
        List.sum_cons, List.sum_nil, List.flatten_cons, List.flatten_nil,
        List.append_nil, List.length_nil]
      rw [ih (Nat.le_of_succ_le h)]
      omega

theorem countKeys_eq_length (t : Table) (h : KeyNumLe t) :
    hash_table_count_keys t = (entriesList t).length := by
  unfold hash_table_count_keys entriesList
  exact sum_range_eq_length_flatten t.store_house t.key_num h

theorem count_eq_entries_length (t : Table) (hS : Struct t) :
    t.key_count = (entriesList t).length := by
  obtain ⟨hle, _, _, hci, _⟩ := hS
  rw [hci]
  exact countKeys_eq_length t hle

theorem keyEntries_eq_filter_flatten (t : Table) (k : List Nat) :
    keyEntries t k =
      ((t.store_house.take t.key_num).map
        (List.filter (fun e => keyMatches e.key k))).flatten := by
  unfold keyEntries entriesList
  rw [List.filter_flatten]

theorem keyEntries_localize (t : Table) (k : List Nat) (hS : Struct t) :
    keyEntries t k =
      (bucketAt t (tableHash t k)).filter (fun e => keyMatches e.key k) := by
  obtain ⟨hle, hbe, hpl, hci, hlt⟩ := hS
  by_cases hkn : t.key_num = 0
  · have hlhs : keyEntries t k = [] := by
      unfold keyEntries entriesList
      simp [hkn]
    have hrhs : bucketAt t (tableHash t k) = [] := by
      rcases Nat.lt_or_ge (tableHash t k) t.store_house.length with hj | hj
      · exact hbe _ hj (hkn ▸ Nat.zero_le _)
      · unfold bucketAt
        rw [List.getD_eq_getElem?_getD, List.getElem?_eq_none hj]
        rfl
    rw [hlhs, hrhs]
    rfl
  · have hh : tableHash t k < t.key_num :=
      Nat.mod_lt _ (Nat.pos_of_ne_zero hkn)
    rw [keyEntries_eq_filter_flatten]
    rw [flatten_eq_of_single _ (tableHash t k) ?_]
    · rw [getD_map_filter]
      unfold bucketAt
      rw [getD_take_of_lt _ _ hh]
    · intro j hj hjne
      rw [getD_map_filter]
      have hjlt : j < t.key_num := by
        rw [List.length_map, List.length_take] at hj
        exact lt_of_lt_of_le hj (min_le_left _ _)
      rw [getD_take_of_lt _ _ hjlt]
      rw [List.filter_eq_nil_iff]
      intro e he hme
      have hek : e.key = k := keyMatches_iff.mp hme
      have := hpl j hjlt e he
      rw [hek] at this
      exact hjne this.symm

theorem lookup_eq_keyEntries (t : Table) (k : List Nat) (hS : Struct t) :
    hash_table_lookup t k =
      match keyEntries t k with
      | [] => 0
      | e :: _ => e.value := by
  rw [hash_table_lookup, lookupChain_eq_filter, ← keyEntries_localize t k hS]

theorem hasKey_eq_keyEntries (t : Table) (k : List Nat) (hS : Struct t) :
    hash_table_has_key t k = if keyEntries t k = [] then 0 else 1 := by
  rw [hash_table_has_key, hasKeyChain_eq_filter, ← keyEntries_localize t k hS]

theorem filter_length_le_one_of_nodup_map {α β : Type} {l : List α}
    {f : α → β} (h : (l.map f).Nodup) (p : α → Bool) (b : β)
    (hp : ∀ a, p a = true → f a = b) : (l.filter p).length ≤ 1 := by
  induction l with
  | nil => simp
  | cons a l ih =>
      rw [List.map_cons, List.nodup_cons] at h
      rcases hpa : p a with _ | _
      · rw [List.filter_cons_of_neg (by simp [hpa])]
        exact ih h.2
      · rw [List.filter_cons_of_pos hpa]
        have hfa : f a = b := hp a hpa
        have hfl : l.filter p = [] := by
          rw [List.filter_eq_nil_iff]
          intro a2 ha2 hpa2
          exact h.1 (by
            rw [hfa, ← hp a2 hpa2]
            exact List.mem_map_of_mem f ha2)
        simp [hfl]

theorem keyEntries_length_le_one (t : Table) (k : List Nat)
    (hnd : KeysNodup t) : (keyEntries t k).length ≤ 1 :=
  filter_length_le_one_of_nodup_map hnd _ k
    (fun _e he => keyMatches_iff.mp he)

theorem perm_eq_of_length_le_one {α : Type} {l l2 : List α}
    (hp : List.Perm l l2) (h : l.length ≤ 1) : l = l2 := by
  match l, h with
  | [], _ => exact (List.Perm.nil_eq hp).symm ▸ rfl
  | [a], _ => exact ((List.perm_singleton).mp hp.symm).symm ▸ rfl

theorem keyEntries_perm {t t2 : Table} (k : List Nat)
    (hp : List.Perm (entriesList t) (entriesList t2)) :
    List.Perm (keyEntries t k) (keyEntries t2 k) :=
  hp.filter _

theorem tableHash_congr {t t2 : Table} (k : List Nat)
    (h : t2.key_num = t.key_num) : tableHash t2 k = tableHash t k := by
  unfold tableHash
  rw [h]

theorem keyEntries_nil_iff (t : Table) (k : List Nat) :
    keyEntries t k = [] ↔ ∀ e ∈ entriesList t, e.key ≠ k := by
  unfold keyEntries
  rw [List.filter_eq_nil_iff]
  constructor
  · intro h e he hek
    exact h e he (hek ▸ keyMatches_self k)
  · intro h e he hm
    exact h e he (keyMatches_iff.mp hm)

theorem keyEntries_nil_iff_not_mem (t : Table) (k : List Nat) :
    keyEntries t k = [] ↔ k ∉ entryKeys t := by
  rw [keyEntries_nil_iff]
  unfold entryKeys
  constructor
  · intro h hk
    obtain ⟨e, he, hek⟩ := List.mem_map.mp hk
    exact h e he hek
  · intro h e he hek
    exact h (List.mem_map.mpr ⟨e, he, hek⟩)

theorem entries_set_exists (t t2 : Table) (h : Nat) (c : List Element)
    (hh : h < t.key_num) (hle : KeyNumLe t)
    (hs : t2.store_house = t.store_house.set h c)
    (hkn : t2.key_num = t.key_num) :
    ∃ P Q, entriesList t = P ++ bucketAt t h ++ Q ∧
      entriesList t2 = P ++ c ++ Q := by
  have hlen : h < (t.store_house.take t.key_num).length := by
    rw [List.length_take]
    exact Nat.lt_min.mpr ⟨hh, lt_of_lt_of_le hh hle⟩
  refine ⟨((t.store_house.take t.key_num).take h).flatten,
    ((t.store_house.take t.key_num).drop (h + 1)).flatten, ?_, ?_⟩
  · unfold entriesList
    have hget : (t.store_house.take t.key_num).getD h [] = bucketAt t h :=
      getD_take_of_lt _ _ hh
    rw [flatten_decomp _ h hlen, hget]
  · unfold entriesList
    rw [hs, hkn, take_set_comm, flatten_set _ h c hlen]

theorem struct_set_bucket (t t2 : Table) (h : Nat) (c : List Element)
    (hS : Struct t) (hh : h < t.key_num)
    (hs : t2.store_house = t.store_house.set h c)
    (hkn : t2.key_num = t.key_num)
    (hrest : t2.key_count + (bucketAt t h).length = t.key_count + c.length)
    (hplc : ∀ e ∈ c, tableHash t e.key = h) :
    Struct t2 := by
  obtain ⟨hle, hbe, hpl, hci, hlt⟩ := hS
  have hlen2 : t2.store_house.length = t.store_house.length := by
    rw [hs, List.length_set]
  have hle2 : KeyNumLe t2 := by
    unfold KeyNumLe
    rw [hlen2, hkn]
    exact hle
  have hbuckets : ∀ j, j ≠ h → bucketAt t2 j = bucketAt t j := by
    intro j hj
    unfold bucketAt
    rw [hs]
    exact getD_set_ne _ _ _ (Ne.symm hj)
  refine ⟨hle2, ?_, ?_, ?_, by rw [hkn]; exact hlt⟩
  · intro i hi1 hi2
    have hneq : i ≠ h := by
      intro he
      rw [he, hkn] at hi2
      exact absurd hh (Nat.not_lt.mpr hi2)
    rw [hbuckets i hneq]
    exact hbe i (hlen2 ▸ hi1) (hkn ▸ hi2)
  · intro i hi e he
    by_cases hih : i = h
    · subst hih
      have hbc : bucketAt t2 i = c := by
        unfold bucketAt
        rw [hs]
        exact getD_set_self _ _ _ _ (lt_of_lt_of_le hh hle)
      rw [hbc] at he
      rw [tableHash_congr _ hkn]
      exact hplc e he
    · rw [hbuckets i hih] at he
      rw [tableHash_congr _ hkn]
      exact hpl i (hkn ▸ hi) e he
  · unfold CountInv
    rw [countKeys_eq_length t2 hle2]
    obtain ⟨P, Q, he1, he2⟩ := entries_set_exists t t2 h c hh hle hs hkn
    have hc1 : t.key_count = P.length + (bucketAt t h).length + Q.length := by
      rw [count_eq_entries_length t ⟨hle, hbe, hpl, hci, hlt⟩, he1]
      simp only [List.length_append]
    have hc2 : (entriesList t2).length = P.length + c.length + Q.length := by
      rw [he2]
      simp only [List.length_append]
    omega

/-! ## Analysis of the insertion step -/

theorem tableHash_lt (t : Table) (k : List Nat) (hpos : 0 < t.key_num) :
    tableHash t k < t.key_num := by
  unfold tableHash hash_table_do_hash
  exact Nat.mod_lt _ hpos

theorem addStep_empty_eq (t : Table) (k : List Nat) (v vl : Nat)
    (hb : bucketAt t (tableHash t k) = []) :
    addStep t k v vl =
      ({ t with
          store_house := t.store_house.set (tableHash t k) [⟨k, v, vl⟩]
          key_count := t.key_count + 1 }, 0, []) := by
  simp only [addStep]
  rw [hb]

theorem addStep_replace_eq (t : Table) (k : List Nat) (v vl : Nat)
    {c0 : Element} {cs cs1 : List Element} {d : Element}
    (hb : bucketAt t (tableHash t k) = c0 :: cs)
    (hct : addChainTail k ⟨k, v, vl⟩ cs = (cs1, some d)) :
    addStep t k v vl =
      ({ t with store_house := t.store_house.set (tableHash t k) (c0 :: cs1) },
       0, hash_table_element_delete_internal t d true) := by
  simp only [addStep]
  rw [hb]
  simp only [hct]

theorem addStep_append_eq (t : Table) (k : List Nat) (v vl : Nat)
    {c0 : Element} {cs cs1 : List Element}
    (hb : bucketAt t (tableHash t k) = c0 :: cs)
    (hct : addChainTail k ⟨k, v, vl⟩ cs = (cs1, none)) :
    addStep t k v vl =
      ({ t with
          store_house := t.store_house.set (tableHash t k) (c0 :: cs1)
          key_count := t.key_count + 1 }, 0, []) := by
  simp only [addStep]
  rw [hb]
  simp only [hct]

theorem addStep_fields (t : Table) (k : List Nat) (v vl : Nat) :
    (addStep t k v vl).1.mode = t.mode ∧
    (addStep t k v vl).1.key_num = t.key_num ∧
    (addStep t k v vl).1.key_ratio = t.key_ratio ∧
    (addStep t k v vl).1.key_destroy_fun = t.key_destroy_fun ∧
    (addStep t k v vl).1.value_destroy_fun = t.value_destroy_fun ∧
    ((addStep t k v vl).1.key_count = t.key_count ∨
      (addStep t k v vl).1.key_count = t.key_count + 1) ∧
    (addStep t k v vl).2.1 = 0 := by
  rcases hb : bucketAt t (tableHash t k) with _ | ⟨c0, cs⟩
  · rw [addStep_empty_eq t k v vl hb]
    simp
  · rcases hct : addChainTail k ⟨k, v, vl⟩ cs with ⟨cs1, _ | d⟩
    · rw [addStep_append_eq t k v vl hb hct]
      simp
    · rw [addStep_replace_eq t k v vl hb hct]
      simp

theorem addStep_struct (t : Table) (k : List Nat) (v vl : Nat)
    (hS : Struct t) (hpos : 0 < t.key_num) :
    Struct (addStep t k v vl).1 := by
  have hh := tableHash_lt t k hpos
  have hle := hS.1
  rcases hb : bucketAt t (tableHash t k) with _ | ⟨c0, cs⟩
  · rw [addStep_empty_eq t k v vl hb]
    refine struct_set_bucket t _ _ [⟨k, v, vl⟩] hS hh rfl rfl ?_ ?_
    · rw [hb]
      simp
    · intro e he
      rcases List.mem_singleton.mp he with rfl
      rfl
  · rcases hct : addChainTail k ⟨k, v, vl⟩ cs with ⟨cs1, od⟩
    have hmem : ∀ e ∈ c0 :: cs, tableHash t e.key = tableHash t k := by
      intro e he
      exact hS.2.2.1 _ hh e (hb ▸ he)
    rcases od with _ | d
    · rw [addStep_append_eq t k v vl hb hct]
      obtain ⟨hcs1, _⟩ := addChainTail_none_decomp hct
      refine struct_set_bucket t _ _ (c0 :: cs1) hS hh rfl rfl ?_ ?_
      · rw [hb, hcs1]
        simp
        omega
      · intro e he
        rcases List.mem_cons.mp he with rfl | hmem2
        · exact hmem e (by simp)
        · rw [hcs1] at hmem2
          rcases List.mem_append.mp hmem2 with hmem3 | hmem3
          · exact hmem e (by simp [hmem3])
          · rcases List.mem_singleton.mp hmem3 with rfl
            rfl
    · rw [addStep_replace_eq t k v vl hb hct]
      obtain ⟨pre, post, hcs, hcs1, _, hd⟩ := addChainTail_some_decomp hct
      refine struct_set_bucket t _ _ (c0 :: cs1) hS hh rfl rfl ?_ ?_
      · rw [hb, hcs, hcs1]
        simp
      · intro e he
        rcases List.mem_cons.mp he with rfl | hmem2
        · exact hmem e (by simp)
        · rw [hcs1] at hmem2
          rcases List.mem_append.mp hmem2 with hmem3 | hmem3
          · exact hmem e (by simp [hcs, List.mem_append, hmem3])
          · rcases List.mem_cons.mp hmem3 with rfl | hmem4
            · rfl
            · exact hmem e (by simp [hcs, List.mem_append, hmem4])

theorem addStep_keyEntries_ne (t : Table) (k : List Nat) (v vl : Nat)
    (hS : Struct t) (hpos : 0 < t.key_num) (k2 : List Nat) (hne : k2 ≠ k) :
    keyEntries (addStep t k v vl).1 k2 = keyEntries t k2 := by
  have hh := tableHash_lt t k hpos
  have hle := hS.1
  have hfe : keyMatches (⟨k, v, vl⟩ : Element).key k2 = false :=
    keyMatches_false_iff.mpr (Ne.symm hne)
  rcases hb : bucketAt t (tableHash t k) with _ | ⟨c0, cs⟩
  · rw [addStep_empty_eq t k v vl hb]
    obtain ⟨P, Q, he1, he2⟩ :=
      entries_set_exists t ({ t with
          store_house := t.store_house.set (tableHash t k) [⟨k, v, vl⟩]
          key_count := t.key_count + 1 })
        (tableHash t k) [⟨k, v, vl⟩] hh hle rfl rfl
    rw [hb] at he1
    unfold keyEntries
    rw [he1, he2]
    simp [List.filter_append, List.filter_cons, hfe]
  · rcases hct : addChainTail k ⟨k, v, vl⟩ cs with ⟨cs1, od⟩
    rcases od with _ | d
    · rw [addStep_append_eq t k v vl hb hct]
      obtain ⟨hcs1, _⟩ := addChainTail_none_decomp hct
      obtain ⟨P, Q, he1, he2⟩ :=
        entries_set_exists t ({ t with
            store_house := t.store_house.set (tableHash t k) (c0 :: cs1)
            key_count := t.key_count + 1 })
          (tableHash t k) (c0 :: cs1) hh hle rfl rfl
      rw [hb] at he1
      unfold keyEntries
      rw [he1, he2, hcs1]
      simp [List.filter_append, List.filter_cons, hfe]
    · rw [addStep_replace_eq t k v vl hb hct]
      obtain ⟨pre, post, hcs, hcs1, _, hd⟩ := addChainTail_some_decomp hct
      have hfd : keyMatches d.key k2 = false :=
        keyMatches_false_iff.mpr ((keyMatches_iff.mp hd).symm ▸ Ne.symm hne)
      obtain ⟨P, Q, he1, he2⟩ :=
        entries_set_exists t ({ t with
            store_house := t.store_house.set (tableHash t k) (c0 :: cs1) })
          (tableHash t k) (c0 :: cs1) hh hle rfl rfl
      rw [hb] at he1
      unfold keyEntries
      rw [he1, he2, hcs, hcs1]
      simp [List.filter_append, List.filter_cons, hfe, hfd]

theorem addStep_fresh (t : Table) (k : List Nat) (v vl : Nat)
    (hS : Struct t) (hpos : 0 < t.key_num)
    (hfresh : keyEntries t k = []) :
    (addStep t k v vl).1.key_count = t.key_count + 1 ∧
    (addStep t k v vl).2.2 = [] ∧
    keyEntries (addStep t k v vl).1 k = [⟨k, v, vl⟩] ∧
    List.Perm (entriesList (addStep t k v vl).1) (⟨k, v, vl⟩ :: entriesList t) ∧
    (KeysNodup t → KeysNodup (addStep t k v vl).1) := by
  have hh := tableHash_lt t k hpos
  have hle := hS.1
  have hbf : (bucketAt t (tableHash t k)).filter
      (fun e => keyMatches e.key k) = [] := by
    rw [← keyEntries_localize t k hS]
    exact hfresh
  have hself : keyMatches (⟨k, v, vl⟩ : Element).key k = true := keyMatches_self k
  -- the bucket update is ch ++ [elem] in every case
  obtain ⟨ch, hb, hstep⟩ :
      ∃ ch, bucketAt t (tableHash t k) = ch ∧
        addStep t k v vl =
          ({ t with
              store_house := t.store_house.set (tableHash t k) (ch ++ [⟨k, v, vl⟩])
              key_count := t.key_count + 1 }, 0, []) := by
    rcases hb : bucketAt t (tableHash t k) with _ | ⟨c0, cs⟩
    · exact ⟨[], rfl, by rw [addStep_empty_eq t k v vl hb]; rfl⟩
    · have hnm : ∀ e ∈ cs, keyMatches e.key k = false := by
        intro e he
        rcases hme : keyMatches e.key k with _ | _
        · rfl
        · have hmem2 : e ∈ (bucketAt t (tableHash t k)).filter
              (fun e => keyMatches e.key k) := by
            rw [hb]
            exact List.mem_filter.mpr ⟨by simp [he], hme⟩
          rw [hbf] at hmem2
          exact absurd hmem2 (List.not_mem_nil e)
      have hct : addChainTail k ⟨k, v, vl⟩ cs = (cs ++ [⟨k, v, vl⟩], none) :=
        addChainTail_of_no_match hnm
      exact ⟨c0 :: cs, rfl, by rw [addStep_append_eq t k v vl hb hct]; rfl⟩
  obtain ⟨P, Q, he1, he2⟩ :=
    entries_set_exists t ({ t with
        store_house := t.store_house.set (tableHash t k) (ch ++ [⟨k, v, vl⟩])
        key_count := t.key_count + 1 }) (tableHash t k) (ch ++ [⟨k, v, vl⟩])
      hh hle rfl rfl
  rw [hb] at he1
  have hperm : List.Perm
      (entriesList (addStep t k v vl).1) (⟨k, v, vl⟩ :: entriesList t) := by
    rw [hstep]
    have hx : entriesList ({ t with
        store_house := t.store_house.set (tableHash t k) (ch ++ [⟨k, v, vl⟩])
        key_count := t.key_count + 1 }) = (P ++ ch) ++ ⟨k, v, vl⟩ :: Q := by
      rw [he2]
      simp [List.append_assoc]
    rw [hx, he1]
    have hpm : List.Perm ((P ++ ch) ++ (⟨k, v, vl⟩ : Element) :: Q)
        ((⟨k, v, vl⟩ : Element) :: ((P ++ ch) ++ Q)) := List.perm_middle
    exact hpm
  have hffilter : keyEntries (addStep t k v vl).1 k = [⟨k, v, vl⟩] := by
    have hPQ : P.filter (fun e => keyMatches e.key k) = [] ∧
        Q.filter (fun e => keyMatches e.key k) = [] := by
      have := hfresh
      unfold keyEntries at this
      rw [he1] at this
      simp only [List.filter_append, List.append_eq_nil] at this
      exact ⟨this.1.1, this.2⟩
    unfold keyEntries
    rw [hstep]
    show (entriesList ({ t with
        store_house := t.store_house.set (tableHash t k) (ch ++ [⟨k, v, vl⟩])
        key_count := t.key_count + 1 })).filter (fun e => keyMatches e.key k) = _
    rw [he2]
    have hchf : ch.filter (fun e => keyMatches e.key k) = [] := hb ▸ hbf
    simp [List.filter_append, hPQ.1, hPQ.2, hchf, List.filter_cons, hself]
  refine ⟨by rw [hstep], by rw [hstep], hffilter, hperm, ?_⟩
  intro hnd
  unfold KeysNodup entryKeys
  have hmap : List.Perm ((entriesList (addStep t k v vl).1).map (·.key))
      (k :: (entriesList t).map (·.key)) := by
    have := hperm.map (·.key)
    simpa using this
  rw [List.Perm.nodup_iff hmap]
  rw [List.nodup_cons]
  exact ⟨(keyEntries_nil_iff_not_mem t k).mp hfresh, hnd⟩

/-! ## The resize migration on well-formed tables -/

theorem getD_replicate_nil {α : Type} (n i : Nat) :
    (List.replicate n ([] : List α)).getD i [] = [] := by
  rw [List.getD_eq_getElem?_getD, List.getElem?_replicate]
  split <;> rfl

theorem resize_target_struct (t : Table) (len : Nat) :
    Struct ({ t with
        store_house := List.replicate len []
        mode := Mode.MODE_ALLREF
        key_num := len % 65536
        key_count := 0 }) := by
  refine ⟨?_, ?_, ?_, ?_, ?_⟩
  · show len % 65536 ≤ (List.replicate len ([] : List Element)).length
    rw [List.length_replicate]
    exact Nat.mod_le len 65536
  · intro i _ _
    show (List.replicate len ([] : List Element)).getD i [] = []
    exact getD_replicate_nil len i
  · intro i _ e he
    have : (List.replicate len ([] : List Element)).getD i [] = [] :=
      getD_replicate_nil len i
    rw [show bucketAt ({ t with
        store_house := List.replicate len []
        mode := Mode.MODE_ALLREF
        key_num := len % 65536
        key_count := 0 }) i = (List.replicate len ([] : List Element)).getD i []
      from rfl, this] at he
    cases he
  · show 0 = hash_table_count_keys _
    unfold hash_table_count_keys
    symm
    apply List.sum_eq_zero
    intro x hx
    obtain ⟨i, _, hix⟩ := List.mem_map.mp hx
    rw [← hix]
    show (bucketAt _ i).length = 0
    rw [show bucketAt ({ t with
        store_house := List.replicate len []
        mode := Mode.MODE_ALLREF
        key_num := len % 65536
        key_count := 0 }) i = (List.replicate len ([] : List Element)).getD i []
      from rfl, getD_replicate_nil len i]
    rfl
  · exact Nat.mod_lt len (by norm_num)

theorem resize_target_entries (t : Table) (len : Nat) :
    entriesList ({ t with
        store_house := List.replicate len []
        mode := Mode.MODE_ALLREF
        key_num := len % 65536
        key_count := 0 }) = [] := by
  unfold entriesList
  rw [List.flatten_eq_nil_iff]
  intro l hl
  exact List.eq_of_mem_replicate (List.mem_of_mem_take hl)

theorem elementEta (e : Element) : (⟨e.key, e.value, e.value_len⟩ : Element) = e :=
  rfl

theorem keyEntries_nil_of_perm {t1 t : Table} (k : List Nat)
    (hp : List.Perm (entriesList t1) (entriesList t))
    (h : keyEntries t k = []) : keyEntries t1 k = [] := by
  have := keyEntries_perm k hp
  rw [h] at this
  exact List.Perm.nil_eq this.symm ▸ rfl

theorem migrate_wf
    (adder : Table → List Nat → Nat → Nat → Option (Table × Int × List Event))
    (hA : WFAdder adder) (es : List Element) :
    ∀ t t2 evs, Struct t → KeysNodup t →
      (es.map (·.key)).Nodup →
      (∀ e ∈ es, keyEntries t e.key = []) →
      migrateWith adder t es = some (t2, evs) →
      Struct t2 ∧ KeysNodup t2 ∧ evs = [] ∧ t2.mode = t.mode ∧
      t2.key_ratio = t.key_ratio ∧
      t2.key_count = t.key_count + es.length ∧
      List.Perm (entriesList t2) (es ++ entriesList t) := by
  induction es with
  | nil =>
      intro t t2 evs hS hN _ _ hm
      simp only [migrateWith, Option.some.injEq, Prod.mk.injEq] at hm
      obtain ⟨h1, h2⟩ := hm
      subst h1
      exact ⟨hS, hN, h2.symm, rfl, rfl, rfl, by simp⟩
  | cons e es ih =>
      intro t t2 evs hS hN hnd hfr hm
      rcases ha : adder t e.key e.value e.value_len with _ | ⟨t1, r1, evs1⟩
      · simp [migrateWith, ha] at hm
      · rcases hm2 : migrateWith adder t1 es with _ | ⟨t3, evs3⟩
        · simp [migrateWith, ha, hm2] at hm
        · simp only [migrateWith, ha, hm2, Option.some.injEq, Prod.mk.injEq] at hm
          obtain ⟨h1, h2⟩ := hm
          obtain ⟨hS1, hN1, hr1, hevs1, hmode1, hratio1, hcount1, hperm1⟩ :=
            hA t e.key e.value e.value_len (t1, r1, evs1) hS hN
              (hfr e (by simp)) ha
          simp only at hS1 hN1 hr1 hevs1 hmode1 hratio1 hcount1 hperm1
          rw [elementEta] at hperm1
          have hndes : (es.map (·.key)).Nodup := (List.nodup_cons.mp hnd).2
          have hknotin : e.key ∉ es.map (·.key) := (List.nodup_cons.mp hnd).1
          have hfr1 : ∀ e2 ∈ es, keyEntries t1 e2.key = [] := by
            intro e2 he2
            have hne : e2.key ≠ e.key := by
              intro hcontra
              exact hknotin (hcontra ▸ List.mem_map_of_mem (·.key) he2)
            have hcons : keyEntries t e2.key = [] := hfr e2 (by simp [he2])
            have hfe : keyMatches e.key e2.key = false :=
              keyMatches_false_iff.mpr (fun hc => hne hc.symm)
            have hfilter : (e :: entriesList t).filter
                (fun x => keyMatches x.key e2.key) = [] := by
              rw [List.filter_cons_of_neg (by simp [hfe])]
              exact hcons
            have hp2 := hperm1.filter (fun x => keyMatches x.key e2.key)
            rw [hfilter] at hp2
            unfold keyEntries
            exact (List.Perm.nil_eq hp2.symm).symm
          obtain ⟨hS2, hN2, hevs3, hmode2, hratio2, hcount2, hperm2⟩ :=
            ih t1 t3 evs3 hS1 hN1 hndes hfr1 hm2
          subst h1
          refine ⟨hS2, hN2, by rw [← h2, hevs1, hevs3]; rfl,
            by rw [hmode2, hmode1], by rw [hratio2, hratio1],
            by rw [hcount2, hcount1, List.length_cons]; omega, ?_⟩
          have hstep1 : List.Perm (es ++ entriesList t1)
              (es ++ (e :: entriesList t)) := hperm1.append_left es
          have hstep2 : List.Perm (es ++ (e :: entriesList t))
              (e :: (es ++ entriesList t)) := List.perm_middle
          exact (hperm2.trans (hstep1.trans hstep2))

theorem resize_wf
    (adder : Table → List Nat → Nat → Nat → Option (Table × Int × List Event))
    (hA : WFAdder adder) (t : Table) (len : Nat)
    (out : Table × Int × List Event)
    (hS : Struct t) (hN : KeysNodup t)
    (hr : resizeWith adder t len = some out) :
    Struct out.1 ∧ KeysNodup out.1 ∧ out.2.1 = 0 ∧ out.2.2 = [] ∧
    out.1.mode = t.mode ∧ out.1.key_ratio = t.key_ratio ∧
    out.1.key_count = t.key_count ∧
    List.Perm (entriesList out.1) (entriesList t) := by
  rcases hm : migrateWith adder ({ t with
      store_house := List.replicate len []
      mode := Mode.MODE_ALLREF
      key_num := len % 65536
      key_count := 0 }) ((t.store_house.take t.key_num).flatten)
    with _ | ⟨t2, evs⟩
  · rw [resizeWith] at hr
    rw [hm] at hr
    cases hr
  · rw [resizeWith] at hr
    rw [hm] at hr
    simp only [Option.some.injEq] at hr
    have hfr : ∀ e ∈ (t.store_house.take t.key_num).flatten,
        keyEntries ({ t with
          store_house := List.replicate len []
          mode := Mode.MODE_ALLREF
          key_num := len % 65536
          key_count := 0 }) e.key = [] := by
      intro e _
      unfold keyEntries
      rw [show entriesList ({ t with
          store_house := List.replicate len []
          mode := Mode.MODE_ALLREF
          key_num := len % 65536
          key_count := 0 }) = [] from resize_target_entries t len]
      rfl
    have hNfresh : KeysNodup ({ t with
        store_house := List.replicate len []
        mode := Mode.MODE_ALLREF
        key_num := len % 65536
        key_count := 0 }) := by
      unfold KeysNodup entryKeys
      rw [resize_target_entries t len]
      exact List.nodup_nil
    obtain ⟨hS2, hN2, hevs, hmode2, hratio2, hcount2, hperm2⟩ :=
      migrate_wf adder hA ((t.store_house.take t.key_num).flatten)
        _ t2 evs (resize_target_struct t len) hNfresh hN hfr hm
    rw [← hr]
    have hperm3 : List.Perm (entriesList t2) (entriesList t) := by
      have := hperm2
      rw [resize_target_entries t len, List.append_nil] at this
      exact this
    refine ⟨?_, ?_, rfl, hevs, rfl, hratio2, ?_, hperm3⟩
    · exact hS2
    · exact hN2
    · rw [hcount2]
      show (0 : Nat) + _ = t.key_count
      rw [Nat.zero_add]
      have := count_eq_entries_length t hS
      rw [this]
      rfl

theorem addF_wf : ∀ fuel, WFAdder (addF fuel) := by
  intro fuel
  induction fuel with
  | zero =>
      intro t k v vl out hS hN hfr h
      rw [show addF 0 t k v vl = none from rfl] at h
      cases h
  | succ fuel ih =>
      intro t k v vl out hS hN hfr h
      simp only [addF] at h
      by_cases hkn : t.key_num = 0
      · rw [if_pos hkn] at h
        cases h
      · rw [if_neg hkn] at h
        have hpos : 0 < t.key_num := Nat.pos_of_ne_zero hkn
        by_cases hgr : t.key_ratio ≤ t.key_count / t.key_num
        · rw [if_pos hgr] at h
          rcases hr : resizeWith (addF fuel) t (t.key_num * 2) with _ | ⟨t1, r1, evs1⟩
          · rw [hr] at h
            cases h
          · rw [hr] at h
            obtain ⟨hS1, hN1, hr1, hevs1, hmode1, hratio1, hcount1, hperm1⟩ :=
              resize_wf (addF fuel) ih t (t.key_num * 2) (t1, r1, evs1) hS hN hr
            simp only at hS1 hN1 hr1 hevs1 hmode1 hratio1 hcount1 hperm1
            simp only at h
            by_cases h10 : t1.key_num = 0
            · rw [if_pos h10] at h
              cases h
            · rw [if_neg h10] at h
              simp only [Option.some.injEq] at h
              have hpos1 : 0 < t1.key_num := Nat.pos_of_ne_zero h10
              have hfr1 : keyEntries t1 k = [] := keyEntries_nil_of_perm k hperm1 hfr
              obtain ⟨hcnt, hevs2, hke, hperm, hnod⟩ :=
                addStep_fresh t1 k v vl hS1 hpos1 hfr1
              obtain ⟨hmode, _, hratio, _, _, _, hret⟩ := addStep_fields t1 k v vl
              have hSr := addStep_struct t1 k v vl hS1 hpos1
              rw [← h]
              refine ⟨hSr, hnod hN1, hret, ?_, ?_, ?_, ?_, ?_⟩
              · show evs1 ++ (addStep t1 k v vl).2.2 = []
                rw [hevs1, hevs2]
                rfl
              · rw [hmode, hmode1]
              · rw [hratio, hratio1]
              · rw [hcnt, hcount1]
              · exact hperm.trans (hperm1.cons _)
        · rw [if_neg hgr] at h
          simp only at h
          rw [if_neg hkn] at h
          simp only [Option.some.injEq] at h
          obtain ⟨hcnt, hevs2, hke, hperm, hnod⟩ :=
            addStep_fresh t k v vl hS hpos hfr
          obtain ⟨hmode, _, hratio, _, _, _, hret⟩ := addStep_fields t k v vl
          have hSr := addStep_struct t k v vl hS hpos
          rw [← h]
          exact ⟨hSr, hnod hN, hret, by rw [show ([] : List Event) ++
              (addStep t k v vl).2.2 = (addStep t k v vl).2.2 from rfl, hevs2],
            hmode, hratio, hcnt, hperm⟩

/-! ## The structural invariants on arbitrary tables -/

theorem migrate_struct
    (adder : Table → List Nat → Nat → Nat → Option (Table × Int × List Event))
    (hA : StructAdder adder) (es : List Element) :
    ∀ t t2 evs, Struct t → migrateWith adder t es = some (t2, evs) →
      Struct t2 ∧ t2.mode = t.mode ∧ t2.key_ratio = t.key_ratio ∧
      (∀ k, keyEntries t k = [] →
        es.filter (fun e => keyMatches e.key k) = [] → keyEntries t2 k = []) ∧
      (∀ k e, keyEntries t k = [] →
        es.filter (fun e2 => keyMatches e2.key k) = [e] →
        keyEntries t2 k = [e]) ∧
      (∀ k e, keyEntries t k = [e] →
        es.filter (fun e2 => keyMatches e2.key k) = [] →
        keyEntries t2 k = [e]) := by
  induction es with
  | nil =>
      intro t t2 evs hS hm
      simp only [migrateWith, Option.some.injEq, Prod.mk.injEq] at hm
      obtain ⟨h1, _⟩ := hm
      subst h1
      exact ⟨hS, rfl, rfl, fun k h _ => h, fun k e _ h2 => by simp at h2,
        fun k e h _ => h⟩
  | cons e0 es ih =>
      intro t t2 evs hS hm
      rcases ha : adder t e0.key e0.value e0.value_len with _ | ⟨t1, r1, evs1⟩
      · simp [migrateWith, ha] at hm
      · rcases hm2 : migrateWith adder t1 es with _ | ⟨t3, evs3⟩
        · simp [migrateWith, ha, hm2] at hm
        · simp only [migrateWith, ha, hm2, Option.some.injEq, Prod.mk.injEq] at hm
          obtain ⟨h1, _⟩ := hm
          obtain ⟨hS1, hmode1, hratio1, hkeep0, hkeep1, hputs⟩ :=
            hA t e0.key e0.value e0.value_len (t1, r1, evs1) hS ha
          simp only at hS1 hmode1 hratio1 hkeep0 hkeep1 hputs
          obtain ⟨hS2, hmode2, hratio2, hk0, hk1, hk2⟩ := ih t1 t3 evs3 hS1 hm2
          subst h1
          refine ⟨hS2, hmode2.trans hmode1, hratio2.trans hratio1, ?_, ?_, ?_⟩
          · intro k hk hf
            rcases hme : keyMatches e0.key k with _ | _
            · rw [List.filter_cons_of_neg (by simp [hme])] at hf
              have hne : k ≠ e0.key := by
                intro hc
                rw [hc, keyMatches_self] at hme
                cases hme
              exact hk0 k (hkeep0 k hne hk) hf
            · rw [List.filter_cons_of_pos (p := fun e => keyMatches e.key k) (a := e0)
                  (l := es) (by simpa using hme)] at hf
              cases hf
          · intro k e hk hf
            rcases hme : keyMatches e0.key k with _ | _
            · rw [List.filter_cons_of_neg (by simp [hme])] at hf
              have hne : k ≠ e0.key := by
                intro hc
                rw [hc, keyMatches_self] at hme
                cases hme
              exact hk1 k e (hkeep0 k hne hk) hf
            · rw [List.filter_cons_of_pos (p := fun e2 => keyMatches e2.key k) (a := e0)
                  (l := es) (by simpa using hme)] at hf
              have he0 : e0 = e := by
                have := congrArg (fun l => l.headD e0) hf
                simpa using this
              have hfes : es.filter (fun e2 => keyMatches e2.key k) = [] := by
                have := congrArg List.tail hf
                simpa using this
              have hkeq : e0.key = k := keyMatches_iff.mp hme
              have hput : keyEntries t1 e0.key = [⟨e0.key, e0.value, e0.value_len⟩] :=
                hputs (by rw [hkeq]; exact hk)
              rw [elementEta] at hput
              rw [hkeq] at hput
              rw [← he0]
              exact hk2 k e0 hput hfes
          · intro k e hk hf
            rcases hme : keyMatches e0.key k with _ | _
            · rw [List.filter_cons_of_neg (by simp [hme])] at hf
              have hne : k ≠ e0.key := by
                intro hc
                rw [hc, keyMatches_self] at hme
                cases hme
              exact hk2 k e (hkeep1 k e hne hk) hf
            · rw [List.filter_cons_of_pos (p := fun e2 => keyMatches e2.key k) (a := e0)
                  (l := es) (by simpa using hme)] at hf
              cases hf

theorem resize_struct
    (adder : Table → List Nat → Nat → Nat → Option (Table × Int × List Event))
    (hA : StructAdder adder) (t : Table) (len : Nat)
    (out : Table × Int × List Event) (_hS : Struct t)
    (hr : resizeWith adder t len = some out) :
    Struct out.1 ∧ out.1.mode = t.mode ∧ out.1.key_ratio = t.key_ratio ∧
    (∀ k, keyEntries t k = [] → keyEntries out.1 k = []) ∧
    (∀ k e, keyEntries t k = [e] → keyEntries out.1 k = [e]) := by
  rcases hm : migrateWith adder ({ t with
      store_house := List.replicate len []
      mode := Mode.MODE_ALLREF
      key_num := len % 65536
      key_count := 0 }) ((t.store_house.take t.key_num).flatten)
    with _ | ⟨t2, evs⟩
  · rw [resizeWith] at hr
    rw [hm] at hr
    cases hr
  · rw [resizeWith] at hr
    rw [hm] at hr
    simp only [Option.some.injEq] at hr
    have hfresh : ∀ k, keyEntries ({ t with
        store_house := List.replicate len []
        mode := Mode.MODE_ALLREF
        key_num := len % 65536
        key_count := 0 }) k = [] := by
      intro k
      unfold keyEntries
      rw [resize_target_entries t len]
      rfl
    obtain ⟨hS2, _, hratio2, hk0, hk1, _⟩ :=
      migrate_struct adder hA ((t.store_house.take t.key_num).flatten)
        _ t2 evs (resize_target_struct t len) hm
    rw [← hr]
    have hfilter : ∀ k, ((t.store_house.take t.key_num).flatten).filter
        (fun e => keyMatches e.key k) = keyEntries t k := fun k => rfl
    refine ⟨hS2, rfl, hratio2, ?_, ?_⟩
    · intro k hk
      show keyEntries t2 k = []
      exact hk0 k (hfresh k) (by rw [hfilter k]; exact hk)
    · intro k e hk
      show keyEntries t2 k = [e]
      exact hk1 k e (hfresh k) (by rw [hfilter k]; exact hk)

theorem addF_struct : ∀ fuel, StructAdder (addF fuel) := by
  intro fuel
  induction fuel with
  | zero =>
      intro t k v vl out hS h
      rw [show addF 0 t k v vl = none from rfl] at h
      cases h
  | succ fuel ih =>
      intro t k v vl out hS h
      simp only [addF] at h
      by_cases hkn : t.key_num = 0
      · rw [if_pos hkn] at h
        cases h
      · rw [if_neg hkn] at h
        have hpos : 0 < t.key_num := Nat.pos_of_ne_zero hkn
        by_cases hgr : t.key_ratio ≤ t.key_count / t.key_num
        · rw [if_pos hgr] at h
          rcases hr : resizeWith (addF fuel) t (t.key_num * 2) with _ | ⟨t1, r1, evs1⟩
          · rw [hr] at h
            cases h
          · rw [hr] at h
            obtain ⟨hS1, hmode1, hratio1, hk0, hk1⟩ :=
              resize_struct (addF fuel) ih t (t.key_num * 2) (t1, r1, evs1) hS hr
            simp only at hS1 hmode1 hratio1 hk0 hk1
            simp only at h
            by_cases h10 : t1.key_num = 0
            · rw [if_pos h10] at h
              cases h
            · rw [if_neg h10] at h
              simp only [Option.some.injEq] at h
              have hpos1 : 0 < t1.key_num := Nat.pos_of_ne_zero h10
              obtain ⟨hmode, _, hratio, _, _, _, _⟩ := addStep_fields t1 k v vl
              have hSr := addStep_struct t1 k v vl hS1 hpos1
              rw [← h]
              refine ⟨hSr, ?_, ?_, ?_, ?_, ?_⟩
              · show (addStep t1 k v vl).1.mode = t.mode
                rw [hmode, hmode1]
              · show (addStep t1 k v vl).1.key_ratio = t.key_ratio
                rw [hratio, hratio1]
              · intro k2 hne hk
                show keyEntries (addStep t1 k v vl).1 k2 = []
                rw [addStep_keyEntries_ne t1 k v vl hS1 hpos1 k2 hne]
                exact hk0 k2 hk
              · intro k2 e hne hk
                show keyEntries (addStep t1 k v vl).1 k2 = [e]
                rw [addStep_keyEntries_ne t1 k v vl hS1 hpos1 k2 hne]
                exact hk1 k2 e hk
              · intro hk
                have hfr1 : keyEntries t1 k = [] := hk0 k hk
                obtain ⟨_, _, hke, _, _⟩ := addStep_fresh t1 k v vl hS1 hpos1 hfr1
                exact hke
        · rw [if_neg hgr] at h
          simp only at h
          rw [if_neg hkn] at h
          simp only [Option.some.injEq] at h
          obtain ⟨hmode, _, hratio, _, _, _, _⟩ := addStep_fields t k v vl
          have hSr := addStep_struct t k v vl hS hpos
          rw [← h]
          refine ⟨hSr, hmode, hratio, ?_, ?_, ?_⟩
          · intro k2 hne hk
            rw [show keyEntries ((addStep t k v vl).1, (addStep t k v vl).2.1,
                (addStep t k v vl).2.2).1 k2 = keyEntries (addStep t k v vl).1 k2
              from rfl]
            rw [addStep_keyEntries_ne t k v vl hS hpos k2 hne]
            exact hk
          · intro k2 e hne hk
            rw [show keyEntries ((addStep t k v vl).1, (addStep t k v vl).2.1,
                (addStep t k v vl).2.2).1 k2 = keyEntries (addStep t k v vl).1 k2
              from rfl]
            rw [addStep_keyEntries_ne t k v vl hS hpos k2 hne]
            exact hk
          · intro hk
            obtain ⟨_, _, hke, _, _⟩ := addStep_fresh t k v vl hS hpos hk
            exact hke

/-! ## Analysis of the removal step -/

theorem remove_unlink_facts (t1 : Table) (k : List Nat) (hS1 : Struct t1)
    (hpos : 0 < t1.key_num) {chain1 : List Element} {d : Element}
    (hrc : removeChain k (bucketAt t1 (tableHash t1 k)) = some (chain1, d)) :
    Struct ({ t1 with
        store_house := t1.store_house.set (tableHash t1 k) chain1
        key_count := t1.key_count - 1 }) ∧
    (∀ k2, k2 ≠ k → keyEntries ({ t1 with
        store_house := t1.store_house.set (tableHash t1 k) chain1
        key_count := t1.key_count - 1 }) k2 = keyEntries t1 k2) ∧
    keyEntries ({ t1 with
        store_house := t1.store_house.set (tableHash t1 k) chain1
        key_count := t1.key_count - 1 }) k = (keyEntries t1 k).tail ∧
    0 < t1.key_count := by
  have hh := tableHash_lt t1 k hpos
  have hle := hS1.1
  obtain ⟨pre, post, hb, hc1, hpre, hd⟩ := removeChain_some_decomp hrc
  have hdk : d.key = k := keyMatches_iff.mp hd
  obtain ⟨P, Q, he1, he2⟩ :=
    entries_set_exists t1 ({ t1 with
        store_house := t1.store_house.set (tableHash t1 k) chain1
        key_count := t1.key_count - 1 })
      (tableHash t1 k) chain1 hh hle rfl rfl
  have hcountpos : 0 < t1.key_count := by
    have := count_eq_entries_length t1 hS1
    rw [this, he1, hb]
    simp
  have hS2 : Struct ({ t1 with
      store_house := t1.store_house.set (tableHash t1 k) chain1
      key_count := t1.key_count - 1 }) := by
    refine struct_set_bucket t1 _ (tableHash t1 k) chain1 hS1 hh rfl rfl ?_ ?_
    · rw [hb, hc1]
      simp
      omega
    · intro e he
      rw [hc1] at he
      have hmem : e ∈ bucketAt t1 (tableHash t1 k) := by
        rw [hb]
        rcases List.mem_append.mp he with h3 | h3
        · simp [h3]
        · simp [h3]
      exact hS1.2.2.1 _ hh e hmem
  have hpref : ∀ k2, pre.filter (fun e => keyMatches e.key k2) =
      pre.filter (fun e => keyMatches e.key k2) := fun _ => rfl
  refine ⟨hS2, ?_, ?_, hcountpos⟩
  · intro k2 hne
    have hfd : keyMatches d.key k2 = false :=
      keyMatches_false_iff.mpr (hdk.symm ▸ fun hc => hne hc.symm)
    unfold keyEntries
    rw [he1, he2, hb, hc1]
    simp [List.filter_append, List.filter_cons, hfd]
  · have hlocal := keyEntries_localize t1 k hS1
    have hlocal2 := keyEntries_localize ({ t1 with
        store_house := t1.store_house.set (tableHash t1 k) chain1
        key_count := t1.key_count - 1 }) k hS2
    have hhash2 : tableHash ({ t1 with
        store_house := t1.store_house.set (tableHash t1 k) chain1
        key_count := t1.key_count - 1 }) k = tableHash t1 k := rfl
    have hbucket2 : bucketAt ({ t1 with
        store_house := t1.store_house.set (tableHash t1 k) chain1
        key_count := t1.key_count - 1 }) (tableHash t1 k) = chain1 := by
      show (t1.store_house.set (tableHash t1 k) chain1).getD (tableHash t1 k) [] = _
      exact getD_set_self _ _ _ _ (lt_of_lt_of_le hh hle)
    have hprefilter : pre.filter (fun e => keyMatches e.key k) = [] := by
      rw [List.filter_eq_nil_iff]
      intro e he hme
      rw [hpre e he] at hme
      cases hme
    rw [hlocal2, hhash2, hbucket2, hc1, hlocal, hb]
    simp [List.filter_append, List.filter_cons, hprefilter, hd]

theorem remove_internal_struct (t : Table) (k : List Nat) (notify : Bool)
    (out : Table × Int × List Event) (hS : Struct t)
    (h : hash_table_remove_internal t k notify = some out) :
    Struct out.1 ∧ out.1.mode = t.mode ∧ out.1.key_ratio = t.key_ratio ∧
    (∀ k2, k2 ≠ k → keyEntries t k2 = [] → keyEntries out.1 k2 = []) ∧
    (∀ k2 e, k2 ≠ k → keyEntries t k2 = [e] → keyEntries out.1 k2 = [e]) := by
  simp only [hash_table_remove_internal] at h
  by_cases hc0 : t.key_count = 0
  · rw [if_pos hc0] at h
    cases h
  · rw [if_neg hc0] at h
    by_cases hsh : t.key_ratio ≤ t.key_num / t.key_count ∧ notify = true
    · rw [if_pos hsh] at h
      rcases hr : resizeWith (addF FUEL) t (t.key_num / 2) with _ | ⟨t1, r1, evs1⟩
      · rw [hr] at h
        cases h
      · rw [hr] at h
        obtain ⟨hS1, hmode1, hratio1, hk0, hk1⟩ :=
          resize_struct (addF FUEL) (addF_struct FUEL) t (t.key_num / 2)
            (t1, r1, evs1) hS hr
        simp only at hS1 hmode1 hratio1 hk0 hk1
        simp only at h
        by_cases h10 : t1.key_num = 0
        · rw [if_pos h10] at h
          cases h
        · rw [if_neg h10] at h
          have hpos1 : 0 < t1.key_num := Nat.pos_of_ne_zero h10
          rcases hrc : removeChain k (bucketAt t1 (tableHash t1 k))
            with _ | ⟨chain1, d⟩
          · rw [hrc] at h
            simp only [Option.some.injEq] at h
            rw [← h]
            exact ⟨hS1, hmode1, hratio1, fun k2 _ hk => hk0 k2 hk,
              fun k2 e _ hk => hk1 k2 e hk⟩
          · rw [hrc] at h
            simp only [Option.some.injEq] at h
            obtain ⟨hS2, hne2, _, _⟩ := remove_unlink_facts t1 k hS1 hpos1 hrc
            rw [← h]
            refine ⟨hS2, ?_, ?_, ?_, ?_⟩
            · show _ = t.mode
              rw [← hmode1]
            · show _ = t.key_ratio
              rw [← hratio1]
            · intro k2 hne hk
              show keyEntries ({ t1 with
                  store_house := t1.store_house.set (tableHash t1 k) chain1
                  key_count := t1.key_count - 1 }) k2 = []
              rw [hne2 k2 hne]
              exact hk0 k2 hk
            · intro k2 e hne hk
              show keyEntries ({ t1 with
                  store_house := t1.store_house.set (tableHash t1 k) chain1
                  key_count := t1.key_count - 1 }) k2 = [e]
              rw [hne2 k2 hne]
              exact hk1 k2 e hk
    · rw [if_neg hsh] at h
      simp only at h
      by_cases h10 : t.key_num = 0
      · rw [if_pos h10] at h
        cases h
      · rw [if_neg h10] at h
        have hpos1 : 0 < t.key_num := Nat.pos_of_ne_zero h10
        rcases hrc : removeChain k (bucketAt t (tableHash t k))
          with _ | ⟨chain1, d⟩
        · rw [hrc] at h
          simp only [Option.some.injEq] at h
          rw [← h]
          exact ⟨hS, rfl, rfl, fun _ _ hk => hk, fun _ _ _ hk => hk⟩
        · rw [hrc] at h
          simp only [Option.some.injEq] at h
          obtain ⟨hS2, hne2, _, _⟩ := remove_unlink_facts t k hS hpos1 hrc
          rw [← h]
          refine ⟨hS2, rfl, rfl, ?_, ?_⟩
          · intro k2 hne hk
            show keyEntries ({ t with
                store_house := t.store_house.set (tableHash t k) chain1
                key_count := t.key_count - 1 }) k2 = []
            rw [hne2 k2 hne]
            exact hk
          · intro k2 e hne hk
            show keyEntries ({ t with
                store_house := t.store_house.set (tableHash t k) chain1
                key_count := t.key_count - 1 }) k2 = [e]
            rw [hne2 k2 hne]
            exact hk

/-! ## Analysis of the replace step (spec-modelled) -/

theorem lookup_of_singleton (t : Table) (k : List Nat) (e : Element)
    (hS : Struct t) (hk : keyEntries t k = [e]) :
    hash_table_lookup t k = e.value := by
  rw [lookup_eq_keyEntries t k hS, hk]

theorem replaceStep_found_eq (t : Table) (k : List Nat) (v vl : Nat)
    {chain1 : List Element} {d : Element}
    (hrc : replaceChain k ⟨k, v, vl⟩ (bucketAt t (tableHash t k)) =
      some (chain1, d)) :
    replaceStep t k v vl =
      ({ t with store_house := t.store_house.set (tableHash t k) chain1 },
       0, replaceDeleteEvents t d) := by
  simp only [replaceStep]
  rw [hrc]

theorem replaceStep_missing_eq (t : Table) (k : List Nat) (v vl : Nat)
    (hrc : replaceChain k ⟨k, v, vl⟩ (bucketAt t (tableHash t k)) = none) :
    replaceStep t k v vl =
      ({ t with
          store_house := t.store_house.set (tableHash t k)
            (bucketAt t (tableHash t k) ++ [⟨k, v, vl⟩])
          key_count := t.key_count + 1 }, 0, []) := by
  simp only [replaceStep]
  rw [hrc]

theorem replaceStep_struct (t : Table) (k : List Nat) (v vl : Nat)
    (hS : Struct t) (hpos : 0 < t.key_num) :
    Struct (replaceStep t k v vl).1 ∧
    (replaceStep t k v vl).1.mode = t.mode ∧
    (replaceStep t k v vl).1.key_ratio = t.key_ratio := by
  have hh := tableHash_lt t k hpos
  rcases hrc : replaceChain k ⟨k, v, vl⟩ (bucketAt t (tableHash t k))
    with _ | ⟨chain1, d⟩
  · rw [replaceStep_missing_eq t k v vl hrc]
    refine ⟨?_, rfl, rfl⟩
    refine struct_set_bucket t _ (tableHash t k)
      (bucketAt t (tableHash t k) ++ [⟨k, v, vl⟩]) hS hh rfl rfl ?_ ?_
    · simp
      omega
    · intro e he
      rcases List.mem_append.mp he with h3 | h3
      · exact hS.2.2.1 _ hh e h3
      · rcases List.mem_singleton.mp h3 with rfl
        rfl
  · rw [replaceStep_found_eq t k v vl hrc]
    refine ⟨?_, rfl, rfl⟩
    obtain ⟨pre, post, hb, hc1, _, _⟩ := replaceChain_some_decomp hrc
    refine struct_set_bucket t _ (tableHash t k) chain1 hS hh rfl rfl ?_ ?_
    · rw [hb, hc1]
      simp
    · intro e he
      rw [hc1] at he
      rcases List.mem_append.mp he with h3 | h3
      · exact hS.2.2.1 _ hh e (by rw [hb]; simp [h3])
      · rcases List.mem_cons.mp h3 with rfl | h4
        · rfl
        · exact hS.2.2.1 _ hh e (by rw [hb]; simp [h4])

theorem replace_struct (t : Table) (k : List Nat) (v vl : Nat)
    (out : Table × Int × List Event) (hS : Struct t)
    (h : hash_table_replace t k v vl = some out) :
    Struct out.1 ∧ out.1.mode = t.mode ∧ out.1.key_ratio = t.key_ratio := by
  simp only [hash_table_replace] at h
  by_cases hkn : t.key_num = 0
  · rw [if_pos hkn] at h
    cases h
  · rw [if_neg hkn] at h
    by_cases hgr : t.key_ratio ≤ t.key_count / t.key_num
    · rw [if_pos hgr] at h
      rcases hr : resizeWith (addF FUEL) t (t.key_num * 2) with _ | ⟨t1, r1, evs1⟩
      · rw [hr] at h
        cases h
      · rw [hr] at h
        obtain ⟨hS1, hmode1, hratio1, _, _⟩ :=
          resize_struct (addF FUEL) (addF_struct FUEL) t (t.key_num * 2)
            (t1, r1, evs1) hS hr
        simp only at hS1 hmode1 hratio1
        simp only at h
        by_cases h10 : t1.key_num = 0
        · rw [if_pos h10] at h
          cases h
        · rw [if_neg h10] at h
          simp only [Option.some.injEq] at h
          obtain ⟨hS2, hmode2, hratio2⟩ :=
            replaceStep_struct t1 k v vl hS1 (Nat.pos_of_ne_zero h10)
          rw [← h]
          exact ⟨hS2, hmode2.trans hmode1, hratio2.trans hratio1⟩
    · rw [if_neg hgr] at h
      simp only at h
      rw [if_neg hkn] at h
      simp only [Option.some.injEq] at h
      obtain ⟨hS2, hmode2, hratio2⟩ :=
        replaceStep_struct t k v vl hS (Nat.pos_of_ne_zero hkn)
      rw [← h]
      exact ⟨hS2, hmode2, hratio2⟩

/-! ## Operation sequences preserve the invariants -/

theorem execOp_struct (t : Table) (op : Op) (t2 : Table) (hS : Struct t)
    (h : execOp t op = some t2) : Struct t2 := by
  cases op with
  | addOp k v vl =>
      rcases ha : hash_table_add t k v vl with _ | ⟨t1, r1, evs1⟩
      · simp [execOp, ha] at h
      · simp only [execOp, ha, Option.some.injEq] at h
        have := (addF_struct FUEL t k v vl (t1, r1, evs1) hS ha).1
        simp only at this
        exact h ▸ this
  | replaceOp k v vl =>
      rcases ha : hash_table_replace t k v vl with _ | ⟨t1, r1, evs1⟩
      · simp [execOp, ha] at h
      · simp only [execOp, ha, Option.some.injEq] at h
        have := (replace_struct t k v vl (t1, r1, evs1) hS ha).1
        simp only at this
        exact h ▸ this
  | removeOp k =>
      rcases ha : hash_table_remove t k with _ | ⟨t1, r1, evs1⟩
      · simp [execOp, ha] at h
      · simp only [execOp, ha, Option.some.injEq] at h
        have := (remove_internal_struct t k true (t1, r1, evs1) hS ha).1
        simp only at this
        exact h ▸ this
  | stealOp k =>
      rcases ha : hash_table_steal t k with _ | ⟨t1, r1, evs1⟩
      · simp [execOp, ha] at h
      · simp only [execOp, ha, Option.some.injEq] at h
        have := (remove_internal_struct t k false (t1, r1, evs1) hS ha).1
        simp only at this
        exact h ▸ this
  | resizeOp len =>
      rcases ha : hash_table_resize t len with _ | ⟨t1, r1, evs1⟩
      · simp [execOp, ha] at h
      · simp only [execOp, ha, Option.some.injEq] at h
        have := (resize_struct (addF FUEL) (addF_struct FUEL) t len
          (t1, r1, evs1) hS ha).1
        simp only at this
        exact h ▸ this

theorem execList_struct (ops : List Op) :
    ∀ t t2, Struct t → execList t ops = some t2 → Struct t2 := by
  induction ops with
  | nil =>
      intro t t2 hS h
      simp only [execList, Option.some.injEq] at h
      exact h ▸ hS
  | cons op ops ih =>
      intro t t2 hS h
      rcases ha : execOp t op with _ | t1
      · simp [execList, ha] at h
      · rw [execList, ha] at h
        exact ih t1 t2 (execOp_struct t op t1 hS ha) h

theorem execOp_keeps_singleton (t : Table) (op : Op) (t2 : Table)
    (k : List Nat) (e : Element) (hS : Struct t)
    (havoid : opAvoids op k = true) (hk : keyEntries t k = [e])
    (h : execOp t op = some t2) : keyEntries t2 k = [e] := by
  cases op with
  | addOp k2 v vl =>
      have hne : k ≠ k2 := by
        have : (k2 ≠ k : Prop) := by simpa [opAvoids] using havoid
        exact fun hc => this hc.symm
      rcases ha : hash_table_add t k2 v vl with _ | ⟨t1, r1, evs1⟩
      · simp [execOp, ha] at h
      · simp only [execOp, ha, Option.some.injEq] at h
        have := (addF_struct FUEL t k2 v vl (t1, r1, evs1) hS ha).2.2.2.2.1
          k e hne hk
        simp only at this
        exact h ▸ this
  | replaceOp k2 v vl => simp [opAvoids] at havoid
  | removeOp k2 =>
      have hne : k ≠ k2 := by
        have : (k2 ≠ k : Prop) := by simpa [opAvoids] using havoid
        exact fun hc => this hc.symm
      rcases ha : hash_table_remove t k2 with _ | ⟨t1, r1, evs1⟩
      · simp [execOp, ha] at h
      · simp only [execOp, ha, Option.some.injEq] at h
        have := (remove_internal_struct t k2 true (t1, r1, evs1) hS ha).2.2.2.2
          k e hne hk
        simp only at this
        exact h ▸ this
  | stealOp k2 =>
      have hne : k ≠ k2 := by
        have : (k2 ≠ k : Prop) := by simpa [opAvoids] using havoid
        exact fun hc => this hc.symm
      rcases ha : hash_table_steal t k2 with _ | ⟨t1, r1, evs1⟩
      · simp [execOp, ha] at h
      · simp only [execOp, ha, Option.some.injEq] at h
        have := (remove_internal_struct t k2 false (t1, r1, evs1) hS ha).2.2.2.2
          k e hne hk
        simp only at this
        exact h ▸ this
  | resizeOp len =>
      rcases ha : hash_table_resize t len with _ | ⟨t1, r1, evs1⟩
      · simp [execOp, ha] at h
      · simp only [execOp, ha, Option.some.injEq] at h
        have := (resize_struct (addF FUEL) (addF_struct FUEL) t len
          (t1, r1, evs1) hS ha).2.2.2.2 k e hk
        simp only at this
        exact h ▸ this

theorem execList_keeps_singleton (ops : List Op) :
    ∀ t t2 k e, Struct t → (∀ op ∈ ops, opAvoids op k = true) →
      keyEntries t k = [e] → execList t ops = some t2 →
      keyEntries t2 k = [e] := by
  induction ops with
  | nil =>
      intro t t2 k e _ _ hk h
      simp only [execList, Option.some.injEq] at h
      exact h ▸ hk
  | cons op ops ih =>
      intro t t2 k e hS havoid hk h
      rcases ha : execOp t op with _ | t1
      · simp [execList, ha] at h
      · rw [execList, ha] at h
        exact ih t1 t2 k e (execOp_struct t op t1 hS ha)
          (fun op2 hop2 => havoid op2 (by simp [hop2]))
          (execOp_keeps_singleton t op t1 k e hS (havoid op (by simp)) hk ha) h

/-! ## The duplicate-insert analysis -/

theorem addF_no_growth_eq (fuel : Nat) (t : Table) (k : List Nat) (v vl : Nat)
    (hkn : t.key_num ≠ 0) (hgr : ¬ t.key_ratio ≤ t.key_count / t.key_num) :
    addF (fuel + 1) t k v vl =
      some ((addStep t k v vl).1, (addStep t k v vl).2.1,
        (addStep t k v vl).2.2) := by
  simp only [addF, if_neg hkn, if_neg hgr, List.nil_append]

theorem addStep_occs_one (t : Table) (k : List Nat) (v vl : Nat)
    (hS : Struct t) (hpos : 0 < t.key_num)
    (hocc : keyOccs (addStep t k v vl).1 k = 1) :
    keyEntries (addStep t k v vl).1 k = [⟨k, v, vl⟩] := by
  have hh := tableHash_lt t k hpos
  have hle := hS.1
  have hS2 := addStep_struct t k v vl hS hpos
  have hself : keyMatches (⟨k, v, vl⟩ : Element).key k = true := keyMatches_self k
  rcases hb : bucketAt t (tableHash t k) with _ | ⟨c0, cs⟩
  · have hfresh : keyEntries t k = [] := by
      rw [keyEntries_localize t k hS, hb]
      rfl
    exact (addStep_fresh t k v vl hS hpos hfresh).2.2.1
  · rcases hct : addChainTail k ⟨k, v, vl⟩ cs with ⟨cs1, od⟩
    have hlocal2 := keyEntries_localize (addStep t k v vl).1 k hS2
    rcases od with _ | d
    · obtain ⟨hcs1, hnone⟩ := addChainTail_none_decomp hct
      have hbucket2 : bucketAt (addStep t k v vl).1
          (tableHash (addStep t k v vl).1 k) = c0 :: cs1 := by
        rw [addStep_append_eq t k v vl hb hct]
        show (t.store_house.set (tableHash t k) (c0 :: cs1)).getD
          (tableHash t k) [] = _
        exact getD_set_self _ _ _ _ (lt_of_lt_of_le hh hle)
      rw [hbucket2] at hlocal2
      have hcsf : cs.filter (fun e => keyMatches e.key k) = [] := by
        rw [List.filter_eq_nil_iff]
        intro e he hme
        rw [hnone e he] at hme
        cases hme
      have hocc2 := hocc
      unfold keyOccs at hocc2
      rw [hlocal2, hcs1] at hocc2
      rw [hlocal2, hcs1]
      rcases hc0m : keyMatches c0.key k with _ | _
      · simp [List.filter_cons, List.filter_append, hcsf, hself, hc0m]
      · rw [List.filter_cons] at hocc2
        simp [hc0m, List.filter_append, hcsf, List.filter_cons, hself] at hocc2
    · obtain ⟨pre, post, hcs, hcs1, hpre, hd⟩ := addChainTail_some_decomp hct
      have hbucket2 : bucketAt (addStep t k v vl).1
          (tableHash (addStep t k v vl).1 k) = c0 :: cs1 := by
        rw [addStep_replace_eq t k v vl hb hct]
        show (t.store_house.set (tableHash t k) (c0 :: cs1)).getD
          (tableHash t k) [] = _
        exact getD_set_self _ _ _ _ (lt_of_lt_of_le hh hle)
      rw [hbucket2] at hlocal2
      have hpref : pre.filter (fun e => keyMatches e.key k) = [] := by
        rw [List.filter_eq_nil_iff]
        intro e he hme
        rw [hpre e he] at hme
        cases hme
      have hocc2 := hocc
      unfold keyOccs at hocc2
      rw [hlocal2, hcs1] at hocc2
      rw [hlocal2, hcs1]
      rcases hc0m : keyMatches c0.key k with _ | _
      · have hpostf : post.filter (fun e => keyMatches e.key k) = [] := by
          rw [List.filter_cons] at hocc2
          simp only [hc0m, Bool.false_eq_true, if_false] at hocc2
          rw [List.filter_append, hpref, List.nil_append, List.filter_cons] at hocc2
          simp only [hself, if_true] at hocc2
          rw [List.length_cons] at hocc2
          exact List.length_eq_zero.mp (by omega)
        simp [List.filter_cons, List.filter_append, hpref, hself, hc0m, hpostf]
      · rw [List.filter_cons] at hocc2
        simp only [hc0m, if_true] at hocc2
        rw [List.filter_append, hpref, List.nil_append, List.filter_cons] at hocc2
        simp [hself] at hocc2

theorem addF_establishes (fuel : Nat) (t : Table) (k : List Nat) (v vl : Nat)
    (out : Table × Int × List Event) (hS : Struct t)
    (hadd : addF (fuel + 1) t k v vl = some out)
    (hocc : keyOccs out.1 k = 1) :
    keyEntries out.1 k = [⟨k, v, vl⟩] := by
  simp only [addF] at hadd
  by_cases hkn : t.key_num = 0
  · rw [if_pos hkn] at hadd
    cases hadd
  · rw [if_neg hkn] at hadd
    by_cases hgr : t.key_ratio ≤ t.key_count / t.key_num
    · rw [if_pos hgr] at hadd
      rcases hr : resizeWith (addF fuel) t (t.key_num * 2) with _ | ⟨t1, r1, evs1⟩
      · rw [hr] at hadd
        cases hadd
      · rw [hr] at hadd
        obtain ⟨hS1, _, _, _, _⟩ :=
          resize_struct (addF fuel) (addF_struct fuel) t (t.key_num * 2)
            (t1, r1, evs1) hS hr
        simp only at hS1
        simp only at hadd
        by_cases h10 : t1.key_num = 0
        · rw [if_pos h10] at hadd
          cases hadd
        · rw [if_neg h10] at hadd
          simp only [Option.some.injEq] at hadd
          rw [← hadd] at hocc ⊢
          exact addStep_occs_one t1 k v vl hS1 (Nat.pos_of_ne_zero h10) hocc
    · rw [if_neg hgr] at hadd
      simp only at hadd
      rw [if_neg hkn] at hadd
      simp only [Option.some.injEq] at hadd
      rw [← hadd] at hocc ⊢
      exact addStep_occs_one t k v vl hS (Nat.pos_of_ne_zero hkn) hocc

/-! ## Analysis of the iterator -/

theorem bucketAt_beyond (t : Table) (hbe : BeyondEmpty t) (i : Nat)
    (hi : t.key_num ≤ i) : bucketAt t i = [] := by
  rcases Nat.lt_or_ge i t.store_house.length with hl | hl
  · exact hbe i hl hi
  · unfold bucketAt
    rw [List.getD_eq_getElem?_getD, List.getElem?_eq_none hl]
    rfl

theorem scanLoop_spec (t : Table) :
    ∀ n pos, t.key_num + 1 - pos ≤ n → pos ≤ t.key_num + 1 →
      pos ≤ (scanLoop t pos).1 ∧ (scanLoop t pos).1 ≤ t.key_num + 1 ∧
      (∀ j, pos ≤ j → j < (scanLoop t pos).1 → bucketAt t j = []) ∧
      ((scanLoop t pos).1 ≤ t.key_num → bucketAt t (scanLoop t pos).1 ≠ []) ∧
      ((scanLoop t pos).1 = t.key_num + 1 → pos ≤ t.key_num →
        t.key_num ∈ (scanLoop t pos).2) := by
  intro n
  induction n with
  | zero =>
      intro pos h1 h2
      have hp : ¬ pos ≤ t.key_num := by omega
      rw [scanLoop, dif_neg hp]
      refine ⟨le_refl pos, h2, fun j hj1 hj2 => by omega, fun hc => by omega,
        fun _ hc => by omega⟩
  | succ n ih =>
      intro pos h1 h2
      by_cases hp : pos ≤ t.key_num
      · rw [scanLoop, dif_pos hp]
        by_cases hbp : bucketAt t pos = []
        · rw [if_pos hbp]
          obtain ⟨ih1, ih2, ih3, ih4, ih5⟩ := ih (pos + 1) (by omega) (by omega)
          refine ⟨by simpa using Nat.le_succ_of_le ih1, by simpa using ih2,
            ?_, by simpa using ih4, ?_⟩
          · intro j hj1 hj2
            rcases Nat.eq_or_lt_of_le hj1 with rfl | hj3
            · exact hbp
            · exact ih3 j hj3 (by simpa using hj2)
          · intro he _
            simp only at he ⊢
            by_cases hp1 : pos + 1 ≤ t.key_num
            · exact List.mem_cons_of_mem pos (ih5 he hp1)
            · have : pos = t.key_num := by omega
              exact this ▸ List.mem_cons_self pos _
        · rw [if_neg hbp]
          exact ⟨le_refl pos, by omega, fun j hj1 hj2 => by omega,
            fun _ => hbp, fun hc => by omega⟩
      · rw [scanLoop, dif_neg hp]
        refine ⟨le_refl pos, h2, fun j hj1 hj2 => by omega, fun hc => by omega,
          fun _ hc => by omega⟩

theorem flattenFrom_decomp (t : Table) (p : Nat) (hle : KeyNumLe t)
    (hp : p < t.key_num) :
    flattenFrom t p = bucketAt t p ++ flattenFrom t (p + 1) := by
  unfold flattenFrom
  have hlen : p < (t.store_house.take t.key_num).length := by
    rw [List.length_take]
    exact Nat.lt_min.mpr ⟨hp, lt_of_lt_of_le hp hle⟩
  rw [drop_eq_getD_cons _ p hlen]
  rw [getD_take_of_lt _ _ hp]
  rfl

theorem flattenFrom_end (t : Table) (p : Nat) (hp : t.key_num ≤ p) :
    flattenFrom t p = [] := by
  unfold flattenFrom
  rw [List.drop_eq_nil_of_le]
  · rfl
  · rw [List.length_take]
    exact le_trans (min_le_left _ _) hp

theorem flattenFrom_skip (t : Table) (hle : KeyNumLe t) :
    ∀ n p q, q - p ≤ n → p ≤ q → q ≤ t.key_num + 1 →
      (∀ j, p ≤ j → j < q → bucketAt t j = []) →
      flattenFrom t p = flattenFrom t q := by
  intro n
  induction n with
  | zero =>
      intro p q h1 h2 _ _
      have : p = q := by omega
      rw [this]
  | succ n ih =>
      intro p q h1 h2 h3 h4
      rcases Nat.eq_or_lt_of_le h2 with rfl | h5
      · rfl
      · by_cases hp : p < t.key_num
        · rw [flattenFrom_decomp t p hle hp, h4 p (le_refl p) h5]
          rw [List.nil_append]
          exact ih (p + 1) q (by omega) h5 h3
            (fun j hj1 hj2 => h4 j (by omega) hj2)
        · rw [flattenFrom_end t p (by omega), flattenFrom_end t q (by omega)]

theorem flattenFrom_zero (t : Table) : flattenFrom t 0 = entriesList t := by
  unfold flattenFrom entriesList
  rw [List.drop_zero]

theorem iter_next_eq_last (t : Table) (s : IterState) (current : Element)
    (hcur : (bucketAt t s.iter_pos)[s.element_index]? = some current)
    (hlast : s.element_index + 1 = (bucketAt t s.iter_pos).length) :
    hash_table_iter_keys_next t s =
      some (current.key, ⟨(scanLoop t (s.iter_pos + 1)).1, 0⟩,
        (scanLoop t (s.iter_pos + 1)).2) := by
  unfold hash_table_iter_keys_next
  rw [hcur]
  simp only [if_pos hlast]

theorem iter_next_eq_mid (t : Table) (s : IterState) (current : Element)
    (hcur : (bucketAt t s.iter_pos)[s.element_index]? = some current)
    (hlast : s.element_index + 1 ≠ (bucketAt t s.iter_pos).length) :
    hash_table_iter_keys_next t s =
      some (current.key, ⟨s.iter_pos, s.element_index + 1⟩, []) := by
  unfold hash_table_iter_keys_next
  rw [hcur]
  simp only [if_neg hlast]

theorem iter_not_done (t : Table) (pos ei : Nat) (hc : 0 < t.key_count)
    (hpos : pos ≤ t.key_num) :
    ¬ hash_table_iter_keys_is_done t ⟨pos, ei⟩ = true := by
  unfold hash_table_iter_keys_is_done
  simp only [Bool.or_eq_true, decide_eq_true_eq]
  rintro (h1 | h2)
  · omega
  · exact absurd h2 (by omega)

theorem iterPassF_step (n : Nat) (t : Table) (s : IterState)
    (hnd : ¬ hash_table_iter_keys_is_done t s = true)
    (k : List Nat) (s1 : IterState) (pr : List Nat)
    (hnext : hash_table_iter_keys_next t s = some (k, s1, pr))
    (ks : List (List Nat)) (ps : List Nat)
    (hrec : iterPassF n t s1 = some (ks, ps)) :
    iterPassF (n + 1) t s = some (k :: ks, pr ++ ps) := by
  rw [iterPassF, if_neg hnd, hnext]
  simp only [hrec]

theorem iterPassF_done (n : Nat) (t : Table) (s : IterState)
    (hd : hash_table_iter_keys_is_done t s = true) :
    iterPassF (n + 1) t s = some ([], []) := by
  rw [iterPassF, if_pos hd]

theorem iterPass_spec (t : Table) (hbe : BeyondEmpty t) (hle : KeyNumLe t)
    (hc : 0 < t.key_count) :
    ∀ n pos ei, pos ≤ t.key_num → bucketAt t pos ≠ [] →
      ei < (bucketAt t pos).length →
      (restEntries t pos ei).length < n →
      ∃ probes, iterPassF n t ⟨pos, ei⟩ =
        some ((restEntries t pos ei).map (·.key), probes) ∧
        t.key_num ∈ probes := by
  intro n
  induction n with
  | zero =>
      intro pos ei _ _ _ hlen
      omega
  | succ n ih =>
      intro pos ei hpos hbne hei hlen
      have hposlt : pos < t.key_num := by
        rcases Nat.eq_or_lt_of_le hpos with he | h
        · rw [he] at hbne
          exact absurd (bucketAt_beyond t hbe t.key_num (le_refl _)) hbne
        · exact h
      have hcur : (bucketAt t pos)[ei]? = some ((bucketAt t pos)[ei]) :=
        List.getElem?_eq_getElem hei
      have hdropcons : (bucketAt t pos).drop ei =
          (bucketAt t pos)[ei] :: (bucketAt t pos).drop (ei + 1) :=
        List.drop_eq_getElem_cons hei
      by_cases hlast : ei + 1 = (bucketAt t pos).length
      · have hdrop1 : (bucketAt t pos).drop (ei + 1) = [] :=
          List.drop_eq_nil_of_le (by omega)
        obtain ⟨hs1, hs2, hs3, hs4, hs5⟩ :=
          scanLoop_spec t (t.key_num + 1) (pos + 1) (by omega) (by omega)
        by_cases hr1 : (scanLoop t (pos + 1)).1 ≤ t.key_num
        · have hbr : bucketAt t (scanLoop t (pos + 1)).1 ≠ [] := hs4 hr1
          have hskip : flattenFrom t (pos + 1) =
              flattenFrom t (scanLoop t (pos + 1)).1 :=
            flattenFrom_skip t hle (t.key_num + 1) (pos + 1)
              (scanLoop t (pos + 1)).1 (by omega) hs1 (by omega) hs3
          have hr1lt : (scanLoop t (pos + 1)).1 < t.key_num := by
            rcases Nat.eq_or_lt_of_le hr1 with he | h
            · exact absurd (bucketAt_beyond t hbe _ (le_of_eq he.symm)) hbr
            · exact h
          have hrest : restEntries t pos ei =
              (bucketAt t pos)[ei] :: restEntries t (scanLoop t (pos + 1)).1 0 := by
            unfold restEntries
            rw [hdropcons, hdrop1, hskip,
              flattenFrom_decomp t _ hle hr1lt]
            simp
          have hbne2 : (0 : Nat) < (bucketAt t (scanLoop t (pos + 1)).1).length :=
            List.length_pos.mpr hbr
          obtain ⟨probes, hpass, hmem⟩ := ih (scanLoop t (pos + 1)).1 0 hr1 hbr
            hbne2 (by rw [hrest] at hlen; simpa using hlen)
          refine ⟨(scanLoop t (pos + 1)).2 ++ probes, ?_, by simp [hmem]⟩
          rw [hrest, List.map_cons]
          exact iterPassF_step n t ⟨pos, ei⟩ (iter_not_done t pos ei hc hpos)
            ((bucketAt t pos)[ei]).key ⟨(scanLoop t (pos + 1)).1, 0⟩
            (scanLoop t (pos + 1)).2
            (iter_next_eq_last t ⟨pos, ei⟩ ((bucketAt t pos)[ei]) hcur hlast)
            ((restEntries t (scanLoop t (pos + 1)).1 0).map (·.key)) probes hpass
        · have hr1e : (scanLoop t (pos + 1)).1 = t.key_num + 1 := by omega
          have hmem : t.key_num ∈ (scanLoop t (pos + 1)).2 :=
            hs5 hr1e (by omega)
          have hskip : flattenFrom t (pos + 1) =
              flattenFrom t (t.key_num + 1) :=
            flattenFrom_skip t hle (t.key_num + 1) (pos + 1) (t.key_num + 1)
              (by omega) (by omega) (by omega)
              (fun j hj1 hj2 => hs3 j hj1 (by omega))
          have hrest : restEntries t pos ei = [(bucketAt t pos)[ei]] := by
            unfold restEntries
            rw [hdropcons, hdrop1, hskip, flattenFrom_end t _ (by omega)]
            rfl
          rcases n with _ | n2
          · rw [hrest] at hlen
            simp at hlen
          · have hdone : iterPassF (n2 + 1) t ⟨t.key_num + 1, 0⟩ =
                some ([], []) := by
              refine iterPassF_done n2 t ⟨t.key_num + 1, 0⟩ ?_
              unfold hash_table_iter_keys_is_done
              simp
            refine ⟨(scanLoop t (pos + 1)).2 ++ [], ?_, by simp [hmem]⟩
            rw [hrest, List.map_cons]
            have hstep := iterPassF_step (n2 + 1) t ⟨pos, ei⟩
              (iter_not_done t pos ei hc hpos)
              ((bucketAt t pos)[ei]).key ⟨(scanLoop t (pos + 1)).1, 0⟩
              (scanLoop t (pos + 1)).2
              (iter_next_eq_last t ⟨pos, ei⟩ ((bucketAt t pos)[ei]) hcur hlast)
              [] [] (hr1e ▸ hdone)
            exact hstep
      · have hei2 : ei + 1 < (bucketAt t pos).length := by omega
        have hrest : restEntries t pos ei =
            (bucketAt t pos)[ei] :: restEntries t pos (ei + 1) := by
          unfold restEntries
          rw [hdropcons]
          rfl
        obtain ⟨probes, hpass, hmem⟩ := ih pos (ei + 1) hpos hbne hei2
          (by rw [hrest] at hlen; simpa using hlen)
        refine ⟨[] ++ probes, ?_, by simp [hmem]⟩
        rw [hrest, List.map_cons]
        exact iterPassF_step n t ⟨pos, ei⟩ (iter_not_done t pos ei hc hpos)
          ((bucketAt t pos)[ei]).key ⟨pos, ei + 1⟩ []
          (iter_next_eq_mid t ⟨pos, ei⟩ ((bucketAt t pos)[ei]) hcur hlast)
          ((restEntries t pos (ei + 1)).map (·.key)) probes hpass

theorem fullIterPass_spec (t : Table) (hS : Struct t) (hcpos : 0 < t.key_count) :
    ∃ probes, fullIterPass t = some (entryKeys t, probes) ∧
      t.key_num ∈ probes := by
  obtain ⟨hle, hbe, hpl, hci, hlt⟩ := hS
  have hcnt : t.key_count = (entriesList t).length := by
    rw [hci]
    exact countKeys_eq_length t hle
  obtain ⟨hs1, hs2, hs3, hs4, hs5⟩ :=
    scanLoop_spec t (t.key_num + 1) 0 (by omega) (by omega)
  have hreset : hash_table_iter_keys_reset t ⟨0, 0⟩ =
      (⟨(scanLoop t 0).1, 0⟩, (scanLoop t 0).2) := by
    unfold hash_table_iter_keys_reset
    rw [if_pos hcpos]
  by_cases hr1 : (scanLoop t 0).1 ≤ t.key_num
  · have hbr : bucketAt t (scanLoop t 0).1 ≠ [] := hs4 hr1
    have hrest : restEntries t (scanLoop t 0).1 0 = entriesList t := by
      unfold restEntries
      rw [List.drop_zero]
      have hdec : flattenFrom t (scanLoop t 0).1 =
          bucketAt t (scanLoop t 0).1 ++ flattenFrom t ((scanLoop t 0).1 + 1) := by
        apply flattenFrom_decomp t _ hle
        rcases Nat.eq_or_lt_of_le hr1 with he | h
        · exact absurd (bucketAt_beyond t hbe _ (le_of_eq he.symm)) hbr
        · exact h
      rw [← hdec]
      rw [← flattenFrom_skip t hle (t.key_num + 1) 0 (scanLoop t 0).1
        (by omega) (by omega) (by omega) (fun j hj1 hj2 => hs3 j hj1 hj2)]
      exact flattenFrom_zero t
    obtain ⟨probes, hpass, hmem⟩ := iterPass_spec t hbe hle hcpos
      (t.key_count + 1) (scanLoop t 0).1 0 hr1 hbr (List.length_pos.mpr hbr)
      (by rw [hrest, ← hcnt]; omega)
    refine ⟨(scanLoop t 0).2 ++ probes, ?_, by simp [hmem]⟩
    unfold fullIterPass
    rw [hreset]
    rw [hrest] at hpass
    simp only [hpass]
    rfl
  · have hr1e : (scanLoop t 0).1 = t.key_num + 1 := by omega
    have hempty : entriesList t = [] := by
      rw [← flattenFrom_zero t]
      rw [flattenFrom_skip t hle (t.key_num + 1) 0 (t.key_num + 1)
        (by omega) (by omega) (by omega)
        (fun j hj1 hj2 => hs3 j hj1 (by omega))]
      exact flattenFrom_end t _ (by omega)
    rw [hempty] at hcnt
    simp at hcnt
    omega

/-! ## Removal on well-formed tables -/

theorem delete_internal_not_notify (t : Table) (e : Element) :
    hash_table_element_delete_internal t e false = [] := by
  unfold hash_table_element_delete_internal
  rcases t.mode <;> simp

theorem removeChain_none_iff_keyEntries (t1 : Table) (k : List Nat)
    (hS1 : Struct t1) :
    removeChain k (bucketAt t1 (tableHash t1 k)) = none ↔
      keyEntries t1 k = [] := by
  rw [removeChain_none_iff, keyEntries_localize t1 k hS1,
    List.filter_eq_nil_iff]
  constructor
  · intro h e he hme
    rw [h e he] at hme
    cases hme
  · intro h e he
    rcases hme : keyMatches e.key k with _ | _
    · rfl
    · exact absurd hme (h e he)

theorem remove_found_keyEntries (t1 : Table) (k : List Nat)
    (hS1 : Struct t1) (hN1 : KeysNodup t1)
    {chain1 : List Element} {d : Element}
    (hrc : removeChain k (bucketAt t1 (tableHash t1 k)) = some (chain1, d)) :
    keyEntries t1 k = [d] := by
  obtain ⟨pre, post, hb, hc1, hpre, hd⟩ := removeChain_some_decomp hrc
  have hpref : pre.filter (fun e => keyMatches e.key k) = [] := by
    rw [List.filter_eq_nil_iff]
    intro e he hme
    rw [hpre e he] at hme
    cases hme
  have hloc : keyEntries t1 k = d :: post.filter (fun e => keyMatches e.key k) := by
    rw [keyEntries_localize t1 k hS1, hb]
    rw [List.filter_append, hpref, List.nil_append, List.filter_cons,
      if_pos hd]
  have hlen := keyEntries_length_le_one t1 k hN1
  rw [hloc] at hlen ⊢
  rw [List.length_cons] at hlen
  have : post.filter (fun e => keyMatches e.key k) = [] :=
    List.length_eq_zero.mp (by omega)
  rw [this]

theorem migrate_no_growth (fuel : Nat) (es : List Element) :
    ∀ t, 0 < t.key_num →
      t.key_count + es.length ≤ t.key_ratio * t.key_num →
      ∃ t2 evs, migrateWith (addF (fuel + 1)) t es = some (t2, evs) ∧
        t2.key_num = t.key_num ∧
        t2.key_count ≤ t.key_count + es.length ∧
        t2.mode = t.mode ∧ t2.key_ratio = t.key_ratio := by
  induction es with
  | nil =>
      intro t hpos _
      exact ⟨t, [], rfl, rfl, by omega, rfl, rfl⟩
  | cons e es ih =>
      intro t hpos hbound
      have hlt : t.key_count < t.key_ratio * t.key_num := by
        have := List.length_cons e es ▸ hbound
        omega
      have hgr : ¬ t.key_ratio ≤ t.key_count / t.key_num := by
        intro hc
        have := Nat.div_lt_iff_lt_mul hpos |>.mpr hlt
        omega
      have hadd := addF_no_growth_eq fuel t e.key e.value e.value_len
        (by omega) hgr
      obtain ⟨hmode, hknum, hratio, _, _, hcnt, _⟩ :=
        addStep_fields t e.key e.value e.value_len
      obtain ⟨t2, evs, hm, h1, h2, h3, h4⟩ :=
        ih (addStep t e.key e.value e.value_len).1
          (by rw [hknum]; exact hpos)
          (by
            rw [hknum, hratio]
            rw [List.length_cons] at hbound
            rcases hcnt with hc | hc <;> rw [hc] <;> omega)
      refine ⟨t2, (addStep t e.key e.value e.value_len).2.2 ++ evs, ?_,
        by rw [h1, hknum], ?_, by rw [h3, hmode], by rw [h4, hratio]⟩
      · rw [migrateWith, hadd]
        simp only [hm]
      · rw [List.length_cons]
        rcases hcnt with hc | hc <;> rw [hc] at h2 <;> omega

theorem resize_exists_of_bound (t : Table) (len : Nat)
    (hpos : 0 < len % 65536)
    (hbound : (entriesList t).length ≤ t.key_ratio * (len % 65536)) :
    ∃ t2 r evs, resizeWith (addF FUEL) t len = some (t2, r, evs) ∧
      t2.key_num = len % 65536 := by
  obtain ⟨t2, evs, hm, h1, _, h3, _⟩ :=
    migrate_no_growth 63 (entriesList t)
      ({ t with
          store_house := List.replicate len []
          mode := Mode.MODE_ALLREF
          key_num := len % 65536
          key_count := 0 }) hpos (by simpa using hbound)
  refine ⟨{ t2 with mode := t.mode }, 0, evs, ?_, by rw [show ({ t2 with
      mode := t.mode } : Table).key_num = t2.key_num from rfl, h1]⟩
  rw [resizeWith]
  rw [show migrateWith (addF FUEL) ({ t with
      store_house := List.replicate len []
      mode := Mode.MODE_ALLREF
      key_num := len % 65536
      key_count := 0 }) ((t.store_house.take t.key_num).flatten) =
    some (t2, evs) from hm]

theorem remove_internal_eq_shrink (t : Table) (k : List Nat)
    (hc0 : ¬ t.key_count = 0)
    (hcond : t.key_ratio ≤ t.key_num / t.key_count)
    {t1 : Table} {r1 : Int} {evs1 : List Event}
    (hr : resizeWith (addF FUEL) t (t.key_num / 2) = some (t1, r1, evs1))
    (h10 : ¬ t1.key_num = 0) :
    hash_table_remove_internal t k true =
      (match removeChain k (bucketAt t1 (tableHash t1 k)) with
       | none => some (t1, (-1 : Int), evs1)
       | some (chain1, d) =>
           some ({ t1 with
               store_house := t1.store_house.set (tableHash t1 k) chain1
               key_count := t1.key_count - 1 }, (0 : Int),
             evs1 ++ hash_table_element_delete_internal t1 d true)) := by
  simp only [hash_table_remove_internal, if_neg hc0]
  rw [hr]
  rw [if_pos (show t.key_ratio ≤ t.key_num / t.key_count ∧ True
      from ⟨hcond, trivial⟩)]
  simp only [if_neg h10]

theorem remove_internal_eq_noshrink (t : Table) (k : List Nat) (notify : Bool)
    (hc0 : ¬ t.key_count = 0)
    (hcond : ¬ (t.key_ratio ≤ t.key_num / t.key_count ∧ notify = true))
    (h10 : ¬ t.key_num = 0) :
    hash_table_remove_internal t k notify =
      (match removeChain k (bucketAt t (tableHash t k)) with
       | none => some (t, (-1 : Int), ([] : List Event))
       | some (chain1, d) =>
           some ({ t with
               store_house := t.store_house.set (tableHash t k) chain1
               key_count := t.key_count - 1 }, (0 : Int),
             hash_table_element_delete_internal t d notify)) := by
  simp only [hash_table_remove_internal, if_neg hc0, if_neg hcond]
  simp only [if_neg h10]
  rfl

theorem remove_internal_wf (t : Table) (k : List Nat) (notify : Bool)
    (hW : WF t) (hratio : t.key_ratio = KEY_RATIO) (hcpos : 0 < t.key_count) :
    ∃ t2 r evs,
      hash_table_remove_internal t k notify = some (t2, r, evs) ∧
      Struct t2 ∧
      (r = if keyEntries t k = [] then -1 else 0) ∧
      (t2.key_count = if keyEntries t k = [] then t.key_count
        else t.key_count - 1) ∧
      hash_table_has_key t2 k = 0 ∧
      (∀ k2, k2 ≠ k → hash_table_has_key t2 k2 = hash_table_has_key t k2) ∧
      hash_table_lookup t2 k = 0 ∧
      (∀ k2, k2 ≠ k → hash_table_lookup t2 k2 = hash_table_lookup t k2) ∧
      (notify = false → evs = [] ∧ t2.key_num = t.key_num) ∧
      (notify = true → t.key_ratio ≤ t.key_num / t.key_count →
        t2.key_num = t.key_num / 2) ∧
      (notify = true → ¬ t.key_ratio ≤ t.key_num / t.key_count →
        t2.key_num = t.key_num) := by
  obtain ⟨hS, hN, hknpos⟩ := hW
  have hc0 : ¬ t.key_count = 0 := by omega
  by_cases hcond : t.key_ratio ≤ t.key_num / t.key_count ∧ notify = true
  · -- shrink path
    obtain ⟨hcond1, hnotify⟩ := hcond
    have hmul : KEY_RATIO * t.key_count ≤ t.key_num := by
      rw [← hratio]
      exact (Nat.le_div_iff_mul_le hcpos).mp hcond1
    have hkn4 : 4 ≤ t.key_num := by
      unfold KEY_RATIO at hmul
      omega
    have hmod : (t.key_num / 2) % 65536 = t.key_num / 2 :=
      Nat.mod_eq_of_lt (by
        have := hS.2.2.2.2
        omega)
    have hhalfpos : 0 < (t.key_num / 2) % 65536 := by
      rw [hmod]
      omega
    obtain ⟨t1, r1, evs1, hr, hknum1⟩ :=
      resize_exists_of_bound t (t.key_num / 2) hhalfpos (by
        rw [hmod, hratio]
        rw [← count_eq_entries_length t hS]
        unfold KEY_RATIO at hmul ⊢
        omega)
    rw [hmod] at hknum1
    obtain ⟨hS1, hN1, _, _, _, _, hcount1, hperm1⟩ :=
      resize_wf (addF FUEL) (addF_wf FUEL) t (t.key_num / 2)
        (t1, r1, evs1) hS hN hr
    simp only at hS1 hN1 hcount1 hperm1
    have hkeyEq : ∀ k2, keyEntries t k2 = keyEntries t1 k2 := fun k2 =>
      perm_eq_of_length_le_one (hperm1.symm.filter _)
        (keyEntries_length_le_one t k2 hN)
    have h10 : ¬ t1.key_num = 0 := by omega
    have hpos1 : 0 < t1.key_num := by omega
    subst hnotify
    rcases hrc : removeChain k (bucketAt t1 (tableHash t1 k))
      with _ | ⟨chain1, d⟩
    · have hke1 : keyEntries t1 k = [] :=
        (removeChain_none_iff_keyEntries t1 k hS1).mp hrc
      have hket : keyEntries t k = [] := by rw [hkeyEq k]; exact hke1
      refine ⟨t1, -1, evs1, ?_, hS1, by rw [if_pos hket], ?_, ?_, ?_, ?_, ?_,
        ?_, ?_, ?_⟩
      · rw [remove_internal_eq_shrink t k hc0 hcond1 hr h10, hrc]
      · rw [if_pos hket, hcount1]
      · rw [hasKey_eq_keyEntries t1 k hS1, if_pos hke1]
      · intro k2 _
        rw [hasKey_eq_keyEntries t1 k2 hS1, hasKey_eq_keyEntries t k2 hS,
          hkeyEq k2]
      · rw [lookup_eq_keyEntries t1 k hS1, hke1]
      · intro k2 _
        rw [lookup_eq_keyEntries t1 k2 hS1, lookup_eq_keyEntries t k2 hS,
          hkeyEq k2]
      · intro hfalse
        cases hfalse
      · intro _ _
        exact hknum1
      · intro _ hcontra
        exact absurd hcond1 hcontra
    · obtain ⟨hS2, hne2, htail2, _⟩ := remove_unlink_facts t1 k hS1 hpos1 hrc
      have hke1 : keyEntries t1 k = [d] := remove_found_keyEntries t1 k hS1 hN1 hrc
      have hket : keyEntries t k = [d] := by rw [hkeyEq k]; exact hke1
      have hketne : ¬ keyEntries t k = [] := by
        rw [hket]
        simp
      have hke2 : keyEntries ({ t1 with
          store_house := t1.store_house.set (tableHash t1 k) chain1
          key_count := t1.key_count - 1 }) k = [] := by
        rw [htail2, hke1]
        rfl
      refine ⟨_, 0, evs1 ++ hash_table_element_delete_internal t1 d true, ?_,
        hS2, by rw [if_neg hketne], ?_, ?_, ?_, ?_, ?_, ?_, ?_, ?_⟩
      · rw [remove_internal_eq_shrink t k hc0 hcond1 hr h10, hrc]
      · show t1.key_count - 1 = _
        rw [if_neg hketne, hcount1]
      · rw [hasKey_eq_keyEntries _ k hS2, if_pos hke2]
      · intro k2 hne
        rw [hasKey_eq_keyEntries _ k2 hS2, hasKey_eq_keyEntries t k2 hS,
          hne2 k2 hne, hkeyEq k2]
      · rw [lookup_eq_keyEntries _ k hS2, hke2]
      · intro k2 hne
        rw [lookup_eq_keyEntries _ k2 hS2, lookup_eq_keyEntries t k2 hS,
          hne2 k2 hne, hkeyEq k2]
      · intro hfalse
        cases hfalse
      · intro _ _
        show t1.key_num = _
        exact hknum1
      · intro _ hcontra
        exact absurd hcond1 hcontra
  · -- no-shrink path
    have h10 : ¬ t.key_num = 0 := by omega
    rcases hrc : removeChain k (bucketAt t (tableHash t k))
      with _ | ⟨chain1, d⟩
    · have hket : keyEntries t k = [] :=
        (removeChain_none_iff_keyEntries t k hS).mp hrc
      refine ⟨t, -1, [], ?_, hS, by rw [if_pos hket], ?_, ?_, ?_, ?_, ?_,
        ?_, ?_, ?_⟩
      · rw [remove_internal_eq_noshrink t k notify hc0 hcond h10, hrc]
      · rw [if_pos hket]
      · rw [hasKey_eq_keyEntries t k hS, if_pos hket]
      · intro k2 _
        rfl
      · rw [lookup_eq_keyEntries t k hS, hket]
      · intro k2 _
        rfl
      · intro _
        exact ⟨rfl, rfl⟩
      · intro hnt hcontra
        exact absurd ⟨hcontra, hnt⟩ hcond
      · intro _ _
        rfl
    · obtain ⟨hS2, hne2, htail2, _⟩ := remove_unlink_facts t k hS
        (by omega) hrc
      have hket : keyEntries t k = [d] := remove_found_keyEntries t k hS hN hrc
      have hketne : ¬ keyEntries t k = [] := by
        rw [hket]
        simp
      have hke2 : keyEntries ({ t with
          store_house := t.store_house.set (tableHash t k) chain1
          key_count := t.key_count - 1 }) k = [] := by
        rw [htail2, hket]
        rfl
      refine ⟨_, 0, hash_table_element_delete_internal t d notify, ?_,
        hS2, by rw [if_neg hketne], ?_, ?_, ?_, ?_, ?_, ?_, ?_, ?_⟩
      · rw [remove_internal_eq_noshrink t k notify hc0 hcond h10, hrc]
      · show t.key_count - 1 = _
        rw [if_neg hketne]
      · rw [hasKey_eq_keyEntries _ k hS2, if_pos hke2]
      · intro k2 hne
        rw [hasKey_eq_keyEntries _ k2 hS2, hasKey_eq_keyEntries t k2 hS,
          hne2 k2 hne]
      · rw [lookup_eq_keyEntries _ k hS2, hke2]
      · intro k2 hne
        rw [lookup_eq_keyEntries _ k2 hS2, lookup_eq_keyEntries t k2 hS,
          hne2 k2 hne]
      · intro hnf
        rw [hnf]
        exact ⟨delete_internal_not_notify t d, rfl⟩
      · intro hnt hcontra
        exact absurd ⟨hcontra, hnt⟩ hcond
      · intro _ _
        rfl

theorem resize_preserves_queries (t : Table) (len : Nat)
    (out : Table × Int × List Event)
    (hS : Struct t) (hN : KeysNodup t)
    (hr : hash_table_resize t len = some out) :
    ∀ k, hash_table_lookup out.1 k = hash_table_lookup t k ∧
      hash_table_has_key out.1 k = hash_table_has_key t k := by
  rw [hash_table_resize] at hr
  obtain ⟨hS2, hN2, _, _, _, _, _, hperm⟩ :=
    resize_wf (addF FUEL) (addF_wf FUEL) t len out hS hN hr
  intro k
  have hkeyEq : keyEntries t k = keyEntries out.1 k :=
    perm_eq_of_length_le_one (hperm.symm.filter _)
      (keyEntries_length_le_one t k hN)
  constructor
  · rw [lookup_eq_keyEntries _ k hS2, lookup_eq_keyEntries t k hS, hkeyEq]
  · rw [hasKey_eq_keyEntries _ k hS2, hasKey_eq_keyEntries t k hS, hkeyEq]

theorem replaceDeleteEvents_no_value (t : Table) (d : Element) :
    ∀ val, Event.valueDestroy val ∉ replaceDeleteEvents t d := by
  intro val
  unfold replaceDeleteEvents
  cases t.mode with
  | MODE_COPY => simp
  | MODE_VALUEREF => simp
  | MODE_ALLREF =>
      by_cases hk : t.key_destroy_fun = true
      · rw [if_pos hk]
        simp
      · rw [if_neg hk]
        simp

theorem replaceStep_found_post (t1 : Table) (k : List Nat) (v vl : Nat)
    (hS1 : Struct t1) (hpos : 0 < t1.key_num)
    (hne : ¬ keyEntries t1 k = []) :
    (replaceStep t1 k v vl).2.1 = 0 ∧
    (replaceStep t1 k v vl).1.key_count = t1.key_count ∧
    hash_table_lookup (replaceStep t1 k v vl).1 k = v ∧
    (∀ val, Event.valueDestroy val ∉ (replaceStep t1 k v vl).2.2) := by
  have hloc := keyEntries_localize t1 k hS1
  rcases hrc : replaceChain k ⟨k, v, vl⟩ (bucketAt t1 (tableHash t1 k))
    with _ | ⟨ch1, d⟩
  · exfalso
    apply hne
    rw [hloc]
    have hall := (replaceChain_none_iff).mp hrc
    exact List.filter_eq_nil_iff.mpr (fun e he => by
      rw [hall e he]
      simp)
  · rw [replaceStep_found_eq t1 k v vl hrc]
    obtain ⟨pre, post, hb, hc1, hpre, hd⟩ := replaceChain_some_decomp hrc
    have hh : tableHash t1 k < t1.store_house.length :=
      Nat.lt_of_lt_of_le (tableHash_lt t1 k hpos) hS1.1
    refine ⟨rfl, rfl, ?_, fun val => replaceDeleteEvents_no_value t1 d val⟩
    show hash_table_lookup
      ({ t1 with store_house := t1.store_house.set (tableHash t1 k) ch1 }) k = v
    rw [hash_table_lookup]
    have hth : tableHash ({ t1 with
        store_house := t1.store_house.set (tableHash t1 k) ch1 }) k
        = tableHash t1 k := rfl
    rw [hth]
    have hbk : bucketAt ({ t1 with
        store_house := t1.store_house.set (tableHash t1 k) ch1 })
        (tableHash t1 k) = ch1 := by
      unfold bucketAt
      exact getD_set_self t1.store_house (tableHash t1 k) ch1 [] hh
    rw [hbk, lookupChain_eq_filter, hc1, List.filter_append]
    have hfp : pre.filter (fun e => keyMatches e.key k) = [] :=
      List.filter_eq_nil_iff.mpr (fun e he => by
        rw [hpre e he]
        simp)
    rw [hfp]
    rw [List.filter_cons_of_pos (by simp [keyMatches_self])]
    rfl

theorem replace_found_wf (t : Table) (k : List Nat) (v vl : Nat)
    (hW : WF t) (hkey : hash_table_has_key t k = 1)
    {t2 : Table} {r : Int} {evs : List Event}
    (hr : hash_table_replace t k v vl = some (t2, r, evs)) :
    r = 0 ∧ hash_table_len t2 = hash_table_len t ∧
    hash_table_lookup t2 k = v ∧
    (∀ val, Event.valueDestroy val ∉ evs) := by
  obtain ⟨hS, hN, hknpos⟩ := hW
  have hket : ¬ keyEntries t k = [] := by
    intro hnil
    rw [hasKey_eq_keyEntries t k hS, if_pos hnil] at hkey
    cases hkey
  have hkn : ¬ t.key_num = 0 := by omega
  simp only [hash_table_replace, if_neg hkn] at hr
  by_cases hgr : t.key_ratio ≤ t.key_count / t.key_num
  · rw [if_pos hgr] at hr
    rcases hrz : resizeWith (addF FUEL) t (t.key_num * 2)
      with _ | ⟨t1, r1, evs1⟩
    · rw [hrz] at hr
      cases hr
    · rw [hrz] at hr
      obtain ⟨hS1, hN1, _, hevs1, _, _, hcount1, hperm1⟩ :=
        resize_wf (addF FUEL) (addF_wf FUEL) t (t.key_num * 2)
          (t1, r1, evs1) hS hN hrz
      simp only at hS1 hN1 hevs1 hcount1 hperm1
      have hkeyEq : keyEntries t k = keyEntries t1 k :=
        perm_eq_of_length_le_one (hperm1.symm.filter _)
          (keyEntries_length_le_one t k hN)
      simp only at hr
      by_cases h10 : t1.key_num = 0
      · rw [if_pos h10] at hr
        cases hr
      · rw [if_neg h10] at hr
        simp only [Option.some.injEq, Prod.mk.injEq] at hr
        obtain ⟨h1, h2, h3⟩ := hr
        obtain ⟨hp1, hp2, hp3, hp4⟩ :=
          replaceStep_found_post t1 k v vl hS1 (by omega)
            (by rw [← hkeyEq]; exact hket)
        subst h1
        subst h2
        subst h3
        refine ⟨hp1, ?_, hp3, ?_⟩
        · show (replaceStep t1 k v vl).1.key_count = t.key_count
          rw [hp2, hcount1]
        · intro val hmem
          rw [hevs1] at hmem
          rcases List.mem_append.mp hmem with h4 | h4
          · cases h4
          · exact hp4 val h4
  · rw [if_neg hgr] at hr
    simp only at hr
    rw [if_neg hkn] at hr
    simp only [Option.some.injEq, Prod.mk.injEq] at hr
    obtain ⟨h1, h2, h3⟩ := hr
    obtain ⟨hp1, hp2, hp3, hp4⟩ :=
      replaceStep_found_post t k v vl hS (by omega) hket
    subst h1
    subst h2
    subst h3
    refine ⟨hp1, hp2, hp3, ?_⟩
    intro val hmem
    rcases List.mem_append.mp hmem with h4 | h4
    · cases h4
    · exact hp4 val h4

/-! ## The claims -/

/-- C1: the spec says a second insert of an existing key replaces the value
in place for every position of the existing entry in its chain, head
included.  The head position is refuted by `C1_counterexample`; this is the
amended statement: when no growth resize intervenes and the existing entry
sits strictly behind the chain head (the head itself not matching), add
does replace in place, returns 0, leaves len() unchanged and lookup then
yields the new value. -/
theorem C1_add_existing_key (t : Table) (k : List Nat) (v vl : Nat)
    (c0 : Element) (cs : List Element)
    (hS : Struct t)
    (hkn : ¬ t.key_num = 0)
    (hgr : ¬ t.key_ratio ≤ t.key_count / t.key_num)
    (hb : bucketAt t (tableHash t k) = c0 :: cs)
    (hc0 : keyMatches c0.key k = false)
    (hmem : ∃ e ∈ cs, keyMatches e.key k = true) :
    ∃ t2 evs, hash_table_add t k v vl = some (t2, 0, evs) ∧
      hash_table_len t2 = hash_table_len t ∧
      hash_table_lookup t2 k = v := by
  rcases hct : addChainTail k ⟨k, v, vl⟩ cs with ⟨cs1, _ | d⟩
  · obtain ⟨_, hall⟩ := addChainTail_none_decomp hct
    obtain ⟨e, he, hm⟩ := hmem
    rw [hall e he] at hm
    cases hm
  · have hstep := addStep_replace_eq t k v vl hb hct
    have hpos : 0 < t.key_num := Nat.pos_of_ne_zero hkn
    have hh : tableHash t k < t.store_house.length :=
      Nat.lt_of_lt_of_le (tableHash_lt t k hpos) hS.1
    obtain ⟨pre, post, hcs, hcs1, hpre, hd⟩ := addChainTail_some_decomp hct
    refine ⟨(addStep t k v vl).1, (addStep t k v vl).2.2, ?_, ?_, ?_⟩
    · show addF FUEL t k v vl = _
      rw [show FUEL = 63 + 1 from rfl, addF_no_growth_eq 63 t k v vl hkn hgr,
        hstep]
    · show (addStep t k v vl).1.key_count = t.key_count
      rw [hstep]
    · show hash_table_lookup (addStep t k v vl).1 k = v
      rw [hstep]
      rw [hash_table_lookup]
      have hth : tableHash ({ t with
          store_house := t.store_house.set (tableHash t k) (c0 :: cs1) }) k
          = tableHash t k := rfl
      rw [hth]
      have hbk : bucketAt ({ t with
          store_house := t.store_house.set (tableHash t k) (c0 :: cs1) })
          (tableHash t k) = c0 :: cs1 := by
        unfold bucketAt
        exact getD_set_self t.store_house (tableHash t k) (c0 :: cs1) [] hh
      rw [hbk, lookupChain_eq_filter,
        List.filter_cons_of_neg (by simp [hc0]), hcs1, List.filter_append]
      have hfp : pre.filter (fun e => keyMatches e.key k) = [] :=
        List.filter_eq_nil_iff.mpr (fun e he => by
          rw [hpre e he]
          simp)
      rw [hfp, List.nil_append,
        List.filter_cons_of_pos (by simp [keyMatches_self])]

/-- C2: the spec says remove and steal on an empty table tolerate
count == 0 and return -1; in the C source `hash_table_remove_internal`
evaluates `table->key_num / table->key_count` on the left of `&&`, so the
division by zero happens before the notify guard can matter and the call
is undefined behavior (modeled as `none`) for both remove and steal. -/
theorem C2_remove_empty_divides_by_zero :
    hash_table_remove (hash_table_new Mode.MODE_COPY) [1] = none ∧
    hash_table_steal (hash_table_new Mode.MODE_COPY) [1] = none := by
  decide

/-- C3: the unconditional round-trip of the spec is refuted by
`C3_counterexample` (a second insert of a key sitting at its chain head
does not replace, so the newer value is never returned).  Amended
round-trip: if an insert leaves the key with exactly one stored entry,
then after any further operations that do not insert, remove or steal that
key (resizes allowed), lookup still returns the inserted value. -/
theorem C3_roundtrip (t : Table) (k : List Nat) (v vl : Nat)
    (t1 : Table) (r : Int) (evs : List Event) (ops : List Op) (t2 : Table)
    (hS : Struct t)
    (hadd : hash_table_add t k v vl = some (t1, r, evs))
    (hocc : keyOccs t1 k = 1)
    (havoid : ∀ op ∈ ops, opAvoids op k = true)
    (hexec : execList t1 ops = some t2) :
    hash_table_lookup t2 k = v := by
  have hadd' : addF (63 + 1) t k v vl = some (t1, r, evs) := hadd
  have hest : keyEntries t1 k = [⟨k, v, vl⟩] :=
    addF_establishes 63 t k v vl (t1, r, evs) hS hadd' hocc
  have hS1 : Struct t1 :=
    (addF_struct FUEL t k v vl (t1, r, evs) hS hadd).1
  have hkeep := execList_keeps_singleton ops t1 t2 k ⟨k, v, vl⟩ hS1 havoid
    hest hexec
  exact lookup_of_singleton t2 k ⟨k, v, vl⟩
    (execList_struct ops t1 t2 hS1 hexec) hkeep

/-- C4: the unrestricted claim quantifies over every table, but on a
reachable duplicate-key table (built through the head-skip defect of add)
a successful resize merges the duplicates during migration, changing both
lookup and len() (`C4_counterexample`).  Amended: on a structurally
well-formed, duplicate-free table a successful `hash_table_resize`
returns 0, restores the mode, leaves len() unchanged, and preserves
lookup and has_key for every key. -/
theorem C4_resize_preserves (t : Table) (len : Nat)
    (t2 : Table) (r : Int) (evs : List Event)
    (hS : Struct t) (hN : KeysNodup t)
    (hr : hash_table_resize t len = some (t2, r, evs)) :
    r = 0 ∧ t2.mode = t.mode ∧ hash_table_len t2 = hash_table_len t ∧
    ∀ k, hash_table_lookup t2 k = hash_table_lookup t k ∧
      hash_table_has_key t2 k = hash_table_has_key t k := by
  have hr' : resizeWith (addF FUEL) t len = some (t2, r, evs) := hr
  obtain ⟨hS2, hN2, hr0, hevs, hmode, hratio, hcount, hperm⟩ :=
    resize_wf (addF FUEL) (addF_wf FUEL) t len (t2, r, evs) hS hN hr'
  simp only at hr0 hmode hcount
  exact ⟨hr0, hmode, hcount,
    fun k => resize_preserves_queries t len (t2, r, evs) hS hN hr k⟩

/-- C5: len() does equal the chain-entry total after any operation
sequence, but it does not equal the number of distinct keys
(`C5_counterexample`: a duplicated key makes both counters 2 while only
one distinct key is present).  Amended: from any structurally well-formed
table, after any successful sequence of add/replace/remove/steal/resize
calls, `hash_table_len` equals `hash_table_count_keys`, the number of
entries reachable by walking every bucket chain. -/
theorem C5_len_eq_chain_count (t : Table) (ops : List Op) (t2 : Table)
    (hS : Struct t) (hexec : execList t ops = some t2) :
    hash_table_len t2 = hash_table_count_keys t2 := by
  have hS2 := execList_struct ops t t2 hS hexec
  exact hS2.2.2.2.1

/-- C6: the spec claims the bucket count never goes below the initial
capacity 128; `C6_counterexample` shows a remove shrinking a fresh table
to 64 buckets.  Amended: on a well-formed table with the default ratio
and at least one entry, remove succeeds and halves the bucket count
whenever `key_ratio ≤ key_num / key_count` - with no floor at
INITIAL_SIZE - and otherwise leaves it unchanged. -/
theorem C6_remove_shrinks_without_floor (t : Table) (k : List Nat)
    (hW : WF t) (hratio : t.key_ratio = KEY_RATIO)
    (hcpos : 0 < t.key_count) :
    ∃ t2 r evs, hash_table_remove t k = some (t2, r, evs) ∧
      (t.key_ratio ≤ t.key_num / t.key_count →
        t2.key_num = t.key_num / 2) ∧
      (¬ t.key_ratio ≤ t.key_num / t.key_count →
        t2.key_num = t.key_num) := by
  obtain ⟨t2, r, evs, heq, _, _, _, _, _, _, _, _, hshr, hnos⟩ :=
    remove_internal_wf t k true hW hratio hcpos
  exact ⟨t2, r, evs, heq, hshr rfl, hnos rfl⟩

/-- C7: steal is not identical to remove up to callbacks: the shrink
condition contains `&& notify`, so remove may halve the bucket count where
steal never does (`C7_counterexample`).  Amended: on a well-formed table
with the default ratio and at least one entry, remove and steal both
succeed with the same return value, the same resulting count and the same
key membership and lookup results; steal fires no destroy callbacks and
never changes the bucket count. -/
theorem C7_steal_vs_remove (t : Table) (k : List Nat)
    (hW : WF t) (hratio : t.key_ratio = KEY_RATIO)
    (hcpos : 0 < t.key_count) :
    ∃ tr rr evsr ts rs evss,
      hash_table_remove t k = some (tr, rr, evsr) ∧
      hash_table_steal t k = some (ts, rs, evss) ∧
      rr = rs ∧ tr.key_count = ts.key_count ∧
      evss = [] ∧ ts.key_num = t.key_num ∧
      (∀ k2, hash_table_has_key tr k2 = hash_table_has_key ts k2) ∧
      (∀ k2, hash_table_lookup tr k2 = hash_table_lookup ts k2) := by
  obtain ⟨tr, rr, evsr, heqr, _, hrr, hcr, hkr0, hkrp, hlr0, hlrp, _, _, _⟩ :=
    remove_internal_wf t k true hW hratio hcpos
  obtain ⟨ts, rs, evss, heqs, _, hrs, hcs, hks0, hksp, hls0, hlsp, hfs, _, _⟩ :=
    remove_internal_wf t k false hW hratio hcpos
  refine ⟨tr, rr, evsr, ts, rs, evss, heqr, heqs, ?_, ?_,
    (hfs rfl).1, (hfs rfl).2, ?_, ?_⟩
  · rw [hrr, hrs]
  · rw [hcr, hcs]
  · intro k2
    by_cases hk2 : k2 = k
    · subst hk2
      rw [hkr0, hks0]
    · rw [hkrp k2 hk2, hksp k2 hk2]
  · intro k2
    by_cases hk2 : k2 = k
    · subst hk2
      rw [hlr0, hls0]
    · rw [hlrp k2 hk2, hlsp k2 hk2]

/-- C8: a full reset/next pass over a non-empty unmutated table does visit
every stored key exactly once with no duplicates or omissions, but the
claim that no bucket index outside [0, bucket_count) is ever accessed is
refuted (`C8_counterexample`): the scan loops run `iter_pos <= key_num`
and read `store_house[key_num]`, one slot past the allocated range.
Amended: on a structurally well-formed, duplicate-free, non-empty table
the pass returns exactly the stored keys (a list without duplicates), and
the probed bucket indices always include the out-of-range index
`key_num`. -/
theorem C8_iteration_complete (t : Table)
    (hS : Struct t) (hN : KeysNodup t) (hcpos : 0 < t.key_count) :
    ∃ probes, fullIterPass t = some (entryKeys t, probes) ∧
      (entryKeys t).Nodup ∧ t.key_num ∈ probes := by
  obtain ⟨probes, h1, h2⟩ := fullIterPass_spec t hS hcpos
  exact ⟨probes, h1, hN, h2⟩

/-- C9: confirmed against the spec-modelled `hash_table_replace` (the
function is declared in hashtable.h and used by the tests but missing from
src/): given a key with an existing entry, a successful replace on a
well-formed table returns 0, leaves len() unchanged, makes lookup return
the new value, and never fires the value destroy callback. -/
theorem C9_replace_keeps_len_skips_value_destroy (t : Table)
    (k : List Nat) (v vl : Nat)
    (t2 : Table) (r : Int) (evs : List Event)
    (hW : WF t) (hkey : hash_table_has_key t k = 1)
    (hr : hash_table_replace t k v vl = some (t2, r, evs)) :
    r = 0 ∧ hash_table_len t2 = hash_table_len t ∧
    hash_table_lookup t2 k = v ∧
    (∀ val, Event.valueDestroy val ∉ evs) :=
  replace_found_wf t k v vl hW hkey hr

/-- C10: has_key and lookup agree: when every stored value is a non-null
pointer (as insert guarantees), has_key returns 1 exactly when lookup
returns a non-NULL value; both hash to the same bucket and use the same
equal-length-then-byte-compare walk. -/
theorem C10_haskey_iff_lookup (t : Table) (k : List Nat)
    (hnz : ∀ ch ∈ t.store_house, ∀ e ∈ ch, e.value ≠ 0) :
    (hash_table_has_key t k = 1 ↔ hash_table_lookup t k ≠ 0) := by
  have hgen : ∀ ch : List Element, (∀ e ∈ ch, e.value ≠ 0) →
      (hasKeyChain k ch = 1 ↔ lookupChain k ch ≠ 0) := by
    intro ch
    induction ch with
    | nil =>
        intro _
        simp [hasKeyChain, lookupChain]
    | cons e rest ih =>
        intro hh
        by_cases hm : keyMatches e.key k = true
        · rw [hasKeyChain, if_pos hm, lookupChain, if_pos hm]
          simp only [true_iff, iff_true]
          exact fun h0 => hh e (by simp) h0
        · rw [hasKeyChain, if_neg hm, lookupChain, if_neg hm]
          exact ih (fun e2 he2 => hh e2 (by simp [he2]))
  rw [hash_table_has_key, hash_table_lookup]
  by_cases hi : tableHash t k < t.store_house.length
  · apply hgen
    intro e he
    have hmem : bucketAt t (tableHash t k) ∈ t.store_house := by
      unfold bucketAt
      rw [List.getD_eq_getElem?_getD, List.getElem?_eq_getElem hi]
      exact List.getElem_mem hi
    exact hnz _ hmem e he
  · have hb : bucketAt t (tableHash t k) = [] := by
      unfold bucketAt
      rw [List.getD_eq_getElem?_getD, List.getElem?_eq_none (by omega)]
      rfl
    rw [hb]
    simp [hasKeyChain, lookupChain]

/-- Refutation for C1: inserting key [1] twice into a fresh table leaves
two entries for it in the same chain (the conflict walk of hash_table_add
never examines the chain head), len() grows to 2, and lookup still returns
the first value. -/
theorem C1_counterexample :
    (execList (hash_table_new Mode.MODE_COPY)
        [.addOp [1] 5 1, .addOp [1] 7 1]).map
      (fun t => (hash_table_len t, hash_table_lookup t [1], keyOccs t [1]))
      = some (2, 5, 2) := by
  decide

/-- Concrete instance for C1: a table whose bucket 62 holds [0] at the
head and [1] behind it; re-adding [1] replaces in place. -/
theorem C1_witness :
    ∃ t2 evs,
      hash_table_add ({ store_house := (List.replicate 128 ([] : List Element)).set 62 [⟨[0], 9, 1⟩, ⟨[1], 5, 1⟩], mode := Mode.MODE_COPY, key_destroy_fun := false, value_destroy_fun := false, key_count := 2, key_num := 128, key_ratio := 4 } : Table) [1] 7 1 = some (t2, 0, evs) ∧
      hash_table_len t2 = hash_table_len ({ store_house := (List.replicate 128 ([] : List Element)).set 62 [⟨[0], 9, 1⟩, ⟨[1], 5, 1⟩], mode := Mode.MODE_COPY, key_destroy_fun := false, value_destroy_fun := false, key_count := 2, key_num := 128, key_ratio := 4 } : Table) ∧
      hash_table_lookup t2 [1] = 7 :=
  C1_add_existing_key ({ store_house := (List.replicate 128 ([] : List Element)).set 62 [⟨[0], 9, 1⟩, ⟨[1], 5, 1⟩], mode := Mode.MODE_COPY, key_destroy_fun := false, value_destroy_fun := false, key_count := 2, key_num := 128, key_ratio := 4 } : Table) [1] 7 1 ⟨[0], 9, 1⟩ [⟨[1], 5, 1⟩]
    (by decide) (by decide) (by decide) (by decide) (by decide) (by decide)

/-- Refutation for C3: after inserting ([2], 5) and then ([2], 7) - the
newer entry never removed or replaced by anything later - lookup returns
the stale first value 5, not 7. -/
theorem C3_counterexample :
    (execList (hash_table_new Mode.MODE_COPY)
        [.addOp [2] 5 1, .addOp [2] 7 1]).map
      (fun t => hash_table_lookup t [2]) = some 5 := by
  decide

/-- Concrete instance for C3: insert ([1], 5) into a fresh table, then add
the colliding key [2]; lookup of [1] still returns 5. -/
theorem C3_witness :
    hash_table_lookup ({ store_house := (List.replicate 128 ([] : List Element)).set 62 [⟨[1], 5, 1⟩, ⟨[2], 7, 1⟩], mode := Mode.MODE_COPY, key_destroy_fun := false, value_destroy_fun := false, key_count := 2, key_num := 128, key_ratio := 4 } : Table) [1] = 5 :=
  C3_roundtrip (hash_table_new Mode.MODE_COPY) [1] 5 1
    ({ store_house := (List.replicate 128 ([] : List Element)).set 62 [⟨[1], 5, 1⟩], mode := Mode.MODE_COPY, key_destroy_fun := false, value_destroy_fun := false, key_count := 1, key_num := 128, key_ratio := 4 } : Table) 0 [] [.addOp [2] 7 1]
    ({ store_house := (List.replicate 128 ([] : List Element)).set 62 [⟨[1], 5, 1⟩, ⟨[2], 7, 1⟩], mode := Mode.MODE_COPY, key_destroy_fun := false, value_destroy_fun := false, key_count := 2, key_num := 128, key_ratio := 4 } : Table)
    (by decide) (by decide) (by decide) (by decide) (by decide)

/-- Refutation for C4: three plain adds from a fresh table reach a
duplicate-key table (key [1] stored twice behind the [2, 0] chain head
after migration) with lookup [1] = 5 and len() = 3; resizing it to one
bucket succeeds with return value 0, yet afterwards lookup [1] = 7 and
len() = 2 - a successful resize that preserves neither lookup nor
len(). -/
theorem C4_counterexample :
    (match execList (hash_table_new Mode.MODE_COPY)
        [.addOp [2, 0] 3 1, .addOp [1] 5 1, .addOp [1] 7 1] with
     | some t =>
         some (hash_table_len t, hash_table_lookup t [1],
           (hash_table_resize t 1).map
             (fun out =>
               (out.2.1, hash_table_len out.1, hash_table_lookup out.1 [1])))
     | none => none)
      = some (3, 5, some (0, 2, 7)) := by
  decide

/-- Concrete instance for C4: resizing a one-entry table from 128 to 256
buckets succeeds and preserves every query. -/
theorem C4_witness :
    (0 : Int) = 0 ∧
    (({ store_house := (List.replicate 256 ([] : List Element)).set 190 [⟨[1], 5, 1⟩], mode := Mode.MODE_COPY, key_destroy_fun := false, value_destroy_fun := false, key_count := 1, key_num := 256, key_ratio := 4 } : Table)).mode = (({ store_house := (List.replicate 128 ([] : List Element)).set 62 [⟨[1], 5, 1⟩], mode := Mode.MODE_COPY, key_destroy_fun := false, value_destroy_fun := false, key_count := 1, key_num := 128, key_ratio := 4 } : Table)).mode ∧
    hash_table_len ({ store_house := (List.replicate 256 ([] : List Element)).set 190 [⟨[1], 5, 1⟩], mode := Mode.MODE_COPY, key_destroy_fun := false, value_destroy_fun := false, key_count := 1, key_num := 256, key_ratio := 4 } : Table) = hash_table_len ({ store_house := (List.replicate 128 ([] : List Element)).set 62 [⟨[1], 5, 1⟩], mode := Mode.MODE_COPY, key_destroy_fun := false, value_destroy_fun := false, key_count := 1, key_num := 128, key_ratio := 4 } : Table) ∧
    ∀ k, hash_table_lookup ({ store_house := (List.replicate 256 ([] : List Element)).set 190 [⟨[1], 5, 1⟩], mode := Mode.MODE_COPY, key_destroy_fun := false, value_destroy_fun := false, key_count := 1, key_num := 256, key_ratio := 4 } : Table) k = hash_table_lookup ({ store_house := (List.replicate 128 ([] : List Element)).set 62 [⟨[1], 5, 1⟩], mode := Mode.MODE_COPY, key_destroy_fun := false, value_destroy_fun := false, key_count := 1, key_num := 128, key_ratio := 4 } : Table) k ∧
      hash_table_has_key ({ store_house := (List.replicate 256 ([] : List Element)).set 190 [⟨[1], 5, 1⟩], mode := Mode.MODE_COPY, key_destroy_fun := false, value_destroy_fun := false, key_count := 1, key_num := 256, key_ratio := 4 } : Table) k = hash_table_has_key ({ store_house := (List.replicate 128 ([] : List Element)).set 62 [⟨[1], 5, 1⟩], mode := Mode.MODE_COPY, key_destroy_fun := false, value_destroy_fun := false, key_count := 1, key_num := 128, key_ratio := 4 } : Table) k :=
  C4_resize_preserves ({ store_house := (List.replicate 128 ([] : List Element)).set 62 [⟨[1], 5, 1⟩], mode := Mode.MODE_COPY, key_destroy_fun := false, value_destroy_fun := false, key_count := 1, key_num := 128, key_ratio := 4 } : Table) 256 ({ store_house := (List.replicate 256 ([] : List Element)).set 190 [⟨[1], 5, 1⟩], mode := Mode.MODE_COPY, key_destroy_fun := false, value_destroy_fun := false, key_count := 1, key_num := 256, key_ratio := 4 } : Table) 0 []
    (by decide) (by decide) (by decide)

/-- Refutation for C5: after inserting key [3] twice, len() is 2 and the
chain walk finds 2 entries, but only 1 distinct key is present. -/
theorem C5_counterexample :
    (execList (hash_table_new Mode.MODE_COPY)
        [.addOp [3] 5 1, .addOp [3] 7 1]).map
      (fun t => (hash_table_len t, (entryKeys t).dedup.length))
      = some (2, 1) := by
  decide

/-- Concrete instance for C5: after one insert into a fresh table, len()
equals the chain-entry total. -/
theorem C5_witness :
    hash_table_len ({ store_house := (List.replicate 128 ([] : List Element)).set 62 [⟨[1], 5, 1⟩], mode := Mode.MODE_COPY, key_destroy_fun := false, value_destroy_fun := false, key_count := 1, key_num := 128, key_ratio := 4 } : Table) = hash_table_count_keys ({ store_house := (List.replicate 128 ([] : List Element)).set 62 [⟨[1], 5, 1⟩], mode := Mode.MODE_COPY, key_destroy_fun := false, value_destroy_fun := false, key_count := 1, key_num := 128, key_ratio := 4 } : Table) :=
  C5_len_eq_chain_count (hash_table_new Mode.MODE_COPY) [.addOp [1] 5 1]
    ({ store_house := (List.replicate 128 ([] : List Element)).set 62 [⟨[1], 5, 1⟩], mode := Mode.MODE_COPY, key_destroy_fun := false, value_destroy_fun := false, key_count := 1, key_num := 128, key_ratio := 4 } : Table) (by decide) (by decide)

/-- Refutation for C6: inserting one key into a fresh 128-bucket table and
removing it shrinks the table to 64 buckets, below the claimed
INITIAL_SIZE floor. -/
theorem C6_counterexample :
    (execList (hash_table_new Mode.MODE_COPY)
        [.addOp [1] 5 1, .removeOp [1]]).map (fun t => t.key_num)
      = some 64 ∧ 64 < INITIAL_SIZE := by
  decide

/-- Concrete instance for C6: removing from a one-entry 128-bucket table
satisfies the shrink condition 4 less-or-equal 128/1, so the bucket count
halves to 64. -/
theorem C6_witness :
    ∃ t2 r evs,
      hash_table_remove ({ store_house := (List.replicate 128 ([] : List Element)).set 62 [⟨[1], 5, 1⟩], mode := Mode.MODE_COPY, key_destroy_fun := false, value_destroy_fun := false, key_count := 1, key_num := 128, key_ratio := 4 } : Table) [1] = some (t2, r, evs) ∧
      ((4 : Nat) ≤ 128 / 1 → t2.key_num = 128 / 2) ∧
      (¬ (4 : Nat) ≤ 128 / 1 → t2.key_num = 128) :=
  C6_remove_shrinks_without_floor ({ store_house := (List.replicate 128 ([] : List Element)).set 62 [⟨[1], 5, 1⟩], mode := Mode.MODE_COPY, key_destroy_fun := false, value_destroy_fun := false, key_count := 1, key_num := 128, key_ratio := 4 } : Table) [1]
    (by decide) (by decide) (by decide)

/-- Refutation for C7: on the same one-entry table, remove leaves 64
buckets but steal leaves 128, so the two calls do not produce the same
bucket count. -/
theorem C7_counterexample :
    (execList (hash_table_new Mode.MODE_COPY)
        [.addOp [1] 5 1, .removeOp [1]]).map (fun t => t.key_num)
      = some 64 ∧
    (execList (hash_table_new Mode.MODE_COPY)
        [.addOp [1] 5 1, .stealOp [1]]).map (fun t => t.key_num)
      = some 128 := by
  decide

/-- Concrete instance for C7: remove and steal of [1] from a one-entry
table agree on the result, count and membership; steal fires no callbacks
and keeps 128 buckets. -/
theorem C7_witness :
    ∃ tr rr evsr ts rs evss,
      hash_table_remove ({ store_house := (List.replicate 128 ([] : List Element)).set 62 [⟨[1], 5, 1⟩], mode := Mode.MODE_COPY, key_destroy_fun := false, value_destroy_fun := false, key_count := 1, key_num := 128, key_ratio := 4 } : Table) [1] = some (tr, rr, evsr) ∧
      hash_table_steal ({ store_house := (List.replicate 128 ([] : List Element)).set 62 [⟨[1], 5, 1⟩], mode := Mode.MODE_COPY, key_destroy_fun := false, value_destroy_fun := false, key_count := 1, key_num := 128, key_ratio := 4 } : Table) [1] = some (ts, rs, evss) ∧
      rr = rs ∧ tr.key_count = ts.key_count ∧
      evss = [] ∧ ts.key_num = 128 ∧
      (∀ k2, hash_table_has_key tr k2 = hash_table_has_key ts k2) ∧
      (∀ k2, hash_table_lookup tr k2 = hash_table_lookup ts k2) :=
  C7_steal_vs_remove ({ store_house := (List.replicate 128 ([] : List Element)).set 62 [⟨[1], 5, 1⟩], mode := Mode.MODE_COPY, key_destroy_fun := false, value_destroy_fun := false, key_count := 1, key_num := 128, key_ratio := 4 } : Table) [1] (by decide) (by decide) (by decide)

/-- Refutation for C8: a full iteration pass over a one-entry 128-bucket
table visits the key but probes bucket index 128, which is outside
[0, 128). -/
theorem C8_counterexample :
    ∃ probes,
      fullIterPass ({ store_house := (List.replicate 128 ([] : List Element)).set 62 [⟨[1], 5, 1⟩], mode := Mode.MODE_COPY, key_destroy_fun := false, value_destroy_fun := false, key_count := 1, key_num := 128, key_ratio := 4 } : Table) = some ([[1]], probes) ∧
      ∃ i ∈ probes, ¬ i < 128 := by
  obtain ⟨probes, h1, h2⟩ :=
    fullIterPass_spec ({ store_house := (List.replicate 128 ([] : List Element)).set 62 [⟨[1], 5, 1⟩], mode := Mode.MODE_COPY, key_destroy_fun := false, value_destroy_fun := false, key_count := 1, key_num := 128, key_ratio := 4 } : Table) (by decide) (by decide)
  have he : entryKeys ({ store_house := (List.replicate 128 ([] : List Element)).set 62 [⟨[1], 5, 1⟩], mode := Mode.MODE_COPY, key_destroy_fun := false, value_destroy_fun := false, key_count := 1, key_num := 128, key_ratio := 4 } : Table) = [[1]] := by decide
  rw [he] at h1
  exact ⟨probes, h1, 128, h2, by omega⟩

/-- Concrete instance for C8: the full pass over the one-entry table
returns exactly its stored keys and probes the out-of-range index 128. -/
theorem C8_witness :
    ∃ probes,
      fullIterPass ({ store_house := (List.replicate 128 ([] : List Element)).set 62 [⟨[1], 5, 1⟩], mode := Mode.MODE_COPY, key_destroy_fun := false, value_destroy_fun := false, key_count := 1, key_num := 128, key_ratio := 4 } : Table) = some (entryKeys ({ store_house := (List.replicate 128 ([] : List Element)).set 62 [⟨[1], 5, 1⟩], mode := Mode.MODE_COPY, key_destroy_fun := false, value_destroy_fun := false, key_count := 1, key_num := 128, key_ratio := 4 } : Table), probes) ∧
      (entryKeys ({ store_house := (List.replicate 128 ([] : List Element)).set 62 [⟨[1], 5, 1⟩], mode := Mode.MODE_COPY, key_destroy_fun := false, value_destroy_fun := false, key_count := 1, key_num := 128, key_ratio := 4 } : Table)).Nodup ∧ (128 : Nat) ∈ probes :=
  C8_iteration_complete ({ store_house := (List.replicate 128 ([] : List Element)).set 62 [⟨[1], 5, 1⟩], mode := Mode.MODE_COPY, key_destroy_fun := false, value_destroy_fun := false, key_count := 1, key_num := 128, key_ratio := 4 } : Table) (by decide) (by decide) (by decide)

/-- Concrete instance for C9: replacing the value of [1] by 9 keeps len()
at 1, makes lookup return 9 and fires no value destroy callback. -/
theorem C9_witness :
    (0 : Int) = 0 ∧
    hash_table_len ({ store_house := (List.replicate 128 ([] : List Element)).set 62 [⟨[1], 9, 1⟩], mode := Mode.MODE_COPY, key_destroy_fun := false, value_destroy_fun := false, key_count := 1, key_num := 128, key_ratio := 4 } : Table) = hash_table_len ({ store_house := (List.replicate 128 ([] : List Element)).set 62 [⟨[1], 5, 1⟩], mode := Mode.MODE_COPY, key_destroy_fun := false, value_destroy_fun := false, key_count := 1, key_num := 128, key_ratio := 4 } : Table) ∧
    hash_table_lookup ({ store_house := (List.replicate 128 ([] : List Element)).set 62 [⟨[1], 9, 1⟩], mode := Mode.MODE_COPY, key_destroy_fun := false, value_destroy_fun := false, key_count := 1, key_num := 128, key_ratio := 4 } : Table) [1] = 9 ∧
    (∀ val, Event.valueDestroy val ∉ ([] : List Event)) :=
  C9_replace_keeps_len_skips_value_destroy ({ store_house := (List.replicate 128 ([] : List Element)).set 62 [⟨[1], 5, 1⟩], mode := Mode.MODE_COPY, key_destroy_fun := false, value_destroy_fun := false, key_count := 1, key_num := 128, key_ratio := 4 } : Table) [1] 9 1
    ({ store_house := (List.replicate 128 ([] : List Element)).set 62 [⟨[1], 9, 1⟩], mode := Mode.MODE_COPY, key_destroy_fun := false, value_destroy_fun := false, key_count := 1, key_num := 128, key_ratio := 4 } : Table) 0 [] (by decide) (by decide) (by decide)

/-- Concrete instance for C10: on the one-entry table, has_key and lookup
agree on key [1]. -/
theorem C10_witness :
    (hash_table_has_key ({ store_house := (List.replicate 128 ([] : List Element)).set 62 [⟨[1], 5, 1⟩], mode := Mode.MODE_COPY, key_destroy_fun := false, value_destroy_fun := false, key_count := 1, key_num := 128, key_ratio := 4 } : Table) [1] = 1 ↔
      hash_table_lookup ({ store_house := (List.replicate 128 ([] : List Element)).set 62 [⟨[1], 5, 1⟩], mode := Mode.MODE_COPY, key_destroy_fun := false, value_destroy_fun := false, key_count := 1, key_num := 128, key_ratio := 4 } : Table) [1] ≠ 0) :=
  C10_haskey_iff_lookup ({ store_house := (List.replicate 128 ([] : List Element)).set 62 [⟨[1], 5, 1⟩], mode := Mode.MODE_COPY, key_destroy_fun := false, value_destroy_fun := false, key_count := 1, key_num := 128, key_ratio := 4 } : Table) [1] (by decide)
